import Mathlib

/-
Verification of the PRESENT block-cipher engines (scalar reference engine
in present_ref/crypto.c, bitsliced engine in present_bs/crypto.c, optimised
bitsliced variant in present_bs/crypto_op.c).

Shallow embedding conventions:
* C byte arrays become List Nat; every uint8_t store is truncated with % 256
  and every uint32_t (bs_reg_t) store with % 4294967296, exactly where the C
  assignment truncates.  Reads use List.getD _ 0 (in-bounds in all uses).
* A C loop `for (i = 0; i < n; ++i) body` becomes foldRange step n init,
  where step is the loop body acting on the mutated state; foldRange applies
  step 0 first and step (n-1) last, matching the loop order.
* The bit of a uint promoted to int and back is modelled with Nat bitwise
  operators; ~(1 << pos) on a 32-bit int is 4294967295 ^^^ (1 <<< pos).
* Functions that mutate several buffers return the corresponding tuple.
-/

/-- foldRange f n a applies f at indices 0, 1, ..., n-1 in that order
(f 0 innermost): the shallow embedding of a counting for-loop. -/
def foldRange {α : Type} (f : Nat → α → α) : Nat → α → α
  | 0, a => a
  | n + 1, a => f n (foldRange f n a)

namespace Ref

/-- Lookup table for the s-box substitution layer (present_ref/crypto.c). -/
def sbox (i : Nat) : Nat :=
  [0xC, 0x5, 0x6, 0xB, 0x9, 0x0, 0xA, 0xD, 0x3, 0xE, 0xF, 0x8, 0x4, 0x7, 0x1, 0x2].getD i 0

/-- get_bit: return the i-th bit of the byte s. -/
def get_bit (s i : Nat) : Nat := (s >>> i) &&& 1

/-- cpy_bit: copy the bit value val into bit position pos of the byte out.
The two uint8_t assignments (out &= ~(1<<pos); out |= val<<pos) each truncate. -/
def cpy_bit (out pos val : Nat) : Nat :=
  ((out &&& (4294967295 ^^^ (1 <<< pos))) % 256 ||| (val <<< pos)) % 256

/-- Loop body of sbox_layer: substitute both nibbles of byte i. -/
def sboxStep (i : Nat) (st : List Nat) : List Nat :=
  st.set i (sbox (st.getD i 0 &&& 0xF) ||| (sbox ((st.getD i 0 >>> 4) &&& 0xF) <<< 4))

/-- sbox_layer: apply the s-box to each nibble of the 8 state bytes. -/
def sbox_layer (s : List Nat) : List Nat := foldRange sboxStep 8 s

/-- Loop body of pbox_layer for overall bit position p = i*8 + j (byte i, bit j):
move bit p of the input to bit position ((p/4) + (p%4)*16) of the output buffer. -/
def pboxStep (s : List Nat) (p : Nat) (out : List Nat) : List Nat :=
  let i := p / 8
  let j := p % 8
  let tmp := get_bit (s.getD i 0) j
  let np := ((i * 8 + j) / 4) + ((i * 8 + j) % 4) * 16
  out.set (np / 8) (cpy_bit (out.getD (np / 8) 0) (np % 8) tmp)

/-- pbox_layer: permute the 64 state bits into a zero-initialised scratch buffer,
then copy it back (the memcpy replaces all 8 bytes). -/
def pbox_layer (s : List Nat) : List Nat :=
  foldRange (pboxStep s) 64 (List.replicate 8 0)

/-- Loop body of add_round_key: pt[i] ^= roundkey[i]; roundkey is not written. -/
def arkStep (i : Nat) (st : List Nat × List Nat) : List Nat × List Nat :=
  (st.1.set i (st.1.getD i 0 ^^^ st.2.getD i 0), st.2)

/-- add_round_key: XOR the 8-byte round key into the 8 state bytes.
Returns the final contents of both buffers (pt mutated, roundkey untouched). -/
def add_round_key (pt roundkey : List Nat) : List Nat × List Nat :=
  foldRange arkStep 8 (pt, roundkey)

/-- First phase of update_round_key: rotate the 80-bit register right by 19 bits
via the fixed byte recipe (tmp0/tmp1/tmp2 save key[0..2] before overwriting). -/
def rotate19 (key : List Nat) : List Nat :=
  let tmp0 := key.getD 0 0
  let tmp1 := key.getD 1 0
  let tmp2 := key.getD 2 0
  [((key.getD 2 0 >>> 3) ||| (key.getD 3 0 <<< 5)) % 256,
   ((key.getD 3 0 >>> 3) ||| (key.getD 4 0 <<< 5)) % 256,
   ((key.getD 4 0 >>> 3) ||| (key.getD 5 0 <<< 5)) % 256,
   ((key.getD 5 0 >>> 3) ||| (key.getD 6 0 <<< 5)) % 256,
   ((key.getD 6 0 >>> 3) ||| (key.getD 7 0 <<< 5)) % 256,
   ((key.getD 7 0 >>> 3) ||| (key.getD 8 0 <<< 5)) % 256,
   ((key.getD 8 0 >>> 3) ||| (key.getD 9 0 <<< 5)) % 256,
   ((key.getD 9 0 >>> 3) ||| (tmp0 <<< 5)) % 256,
   ((tmp0 >>> 3) ||| (tmp1 <<< 5)) % 256,
   ((tmp1 >>> 3) ||| (tmp2 <<< 5)) % 256]

/-- Second phase of update_round_key: s-box lookup on the most significant nibble
(tmp = sbox[key[9] >> 4]; key[9] &= 0x0F; key[9] |= tmp << 4). -/
def sbox_top (key : List Nat) : List Nat :=
  key.set 9 (((key.getD 9 0 &&& 0x0F) ||| (sbox (key.getD 9 0 >>> 4) <<< 4)) % 256)

/-- Third phase of update_round_key: XOR the round counter into k19..k15
(key[1] ^= r << 7; key[2] ^= r >> 1). -/
def xor_counter (key : List Nat) (r : Nat) : List Nat :=
  let k1 := key.set 1 ((key.getD 1 0 ^^^ (r <<< 7)) % 256)
  k1.set 2 ((k1.getD 2 0 ^^^ (r >>> 1)) % 256)

/-- update_round_key: rotate right by 19 bits, s-box the top nibble,
then XOR in the round counter r. -/
def update_round_key (key : List Nat) (r : Nat) : List Nat :=
  xor_counter (sbox_top (rotate19 key)) r

/-- Loop body of crypto_func for round counter value n+1. -/
def roundStep (n : Nat) (st : List Nat × List Nat) : List Nat × List Nat :=
  let i := n + 1
  let s1 := (add_round_key st.1 (st.2.drop 2)).1
  let s2 := sbox_layer s1
  let s3 := pbox_layer s2
  (s3, update_round_key st.2 i)

/-- crypto_func (scalar engine): 31 rounds of add_round_key(pt, key+2), sbox_layer,
pbox_layer, update_round_key(key, i), then a final add_round_key(pt, key+2).
Returns the final contents of the pt and key buffers. -/
def crypto_func (pt key : List Nat) : List Nat × List Nat :=
  let sk := foldRange roundStep 31 (pt, key)
  ((add_round_key sk.1 (sk.2.drop 2)).1, sk.2)

end Ref

namespace BS

/-- get_reg_bit: return the i-th bit of the byte s. -/
def get_reg_bit (s i : Nat) : Nat := (s >>> i) &&& 1

/-- get_bs_bit: return the i-th bit of the 32-bit slice s. -/
def get_bs_bit (s i : Nat) : Nat := (s >>> i) &&& 1

/-- cpy_reg_bit: copy bit val into position pos of the byte out. -/
def cpy_reg_bit (out pos val : Nat) : Nat :=
  ((out &&& (4294967295 ^^^ (1 <<< pos))) % 256 ||| (val <<< pos)) % 256

/-- cpy_bs_bit: copy bit val into position pos of the 32-bit word out. -/
def cpy_bs_bit (out pos val : Nat) : Nat :=
  ((out &&& (4294967295 ^^^ (1 <<< pos))) % 4294967296 ||| (val <<< pos)) % 4294967296

/-- Inner loop body of enslice (bit index j of the current block i): read bit
j % 8 of the byte under the read pointer and store it at position i of lane j;
the pointer advances after every eighth bit. -/
def ensliceInner (pt : List Nat) (i j : Nat) (acc : List Nat × Nat) : List Nat × Nat :=
  let bit_value := get_reg_bit (pt.getD acc.2 0) (j % 8)
  let st2 := acc.1.set j (cpy_bs_bit (acc.1.getD j 0) i bit_value)
  (st2, if (j + 1) % 8 = 0 then acc.2 + 1 else acc.2)

/-- Outer loop body of enslice (block index i): slice all 64 bits of block i. -/
def ensliceOuter (pt : List Nat) (i : Nat) (acc : List Nat × Nat) : List Nat × Nat :=
  foldRange (ensliceInner pt i) 64 acc

/-- enslice: bring the 256-byte buffer pt into the 64-lane bitsliced form,
starting from the given contents of the output buffer state_bs. -/
def enslice (pt : List Nat) (state_bs : List Nat) : List Nat :=
  (foldRange (ensliceOuter pt) 32 (state_bs, 0)).1

/-- Inner loop body of unslice: write bit i of lane j to bit j % 8 of the byte
under the write pointer; the pointer advances after every eighth bit. -/
def unsliceInner (state_bs : List Nat) (i j : Nat) (acc : List Nat × Nat) : List Nat × Nat :=
  let bit_value := get_bs_bit (state_bs.getD j 0) i
  let pt2 := acc.1.set acc.2 (cpy_reg_bit (acc.1.getD acc.2 0) (j % 8) bit_value)
  (pt2, if (j + 1) % 8 = 0 then acc.2 + 1 else acc.2)

/-- Outer loop body of unslice (block index i). -/
def unsliceOuter (state_bs : List Nat) (i : Nat) (acc : List Nat × Nat) : List Nat × Nat :=
  foldRange (unsliceInner state_bs i) 64 acc

/-- unslice: bring the 64-lane bitsliced state back into the 256-byte buffer pt. -/
def unslice (state_bs : List Nat) (pt : List Nat) : List Nat :=
  (foldRange (unsliceOuter state_bs) 32 (pt, 0)).1

/-- Loop body of the bitsliced add_round_key: XOR bit i of the round key,
replicated across all 32 lanes via the two-entry table {0, 0xFFFFFFFF},
into lane i. -/
def bsArkStep (roundkey : List Nat) (i : Nat) (st : List Nat) : List Nat :=
  let current_bit := get_reg_bit (roundkey.getD (i / 8) 0) (i % 8)
  st.set i (st.getD i 0 ^^^ [0, 4294967295].getD current_bit 0)

/-- Bitsliced add_round_key over the 64 lanes. -/
def add_round_key (state_bs roundkey : List Nat) : List Nat :=
  foldRange (bsArkStep roundkey) 64 state_bs

/-- sbox0: first Boolean substitution box (y0 = x0 + x1x2 + x2 + x3). -/
def sbox0 (in0 in1 in2 in3 : Nat) : Nat := in0 ^^^ (in1 &&& in2) ^^^ in2 ^^^ in3

/-- sbox1: second Boolean substitution box. -/
def sbox1 (in0 in1 in2 in3 : Nat) : Nat :=
  (in0 &&& in2 &&& in1) ^^^ (in0 &&& in3 &&& in1) ^^^ (in3 &&& in1) ^^^ in1 ^^^
    (in0 &&& in2 &&& in3) ^^^ (in2 &&& in3) ^^^ in3

/-- sbox2: third Boolean substitution box (complemented: ... ^ 0xffffffff). -/
def sbox2 (in0 in1 in2 in3 : Nat) : Nat :=
  (in0 &&& in1) ^^^ (in0 &&& in3 &&& in1) ^^^ (in3 &&& in1) ^^^ in2 ^^^ (in0 &&& in3) ^^^
    (in0 &&& in2 &&& in3) ^^^ in3 ^^^ 0xffffffff

/-- sbox3: fourth Boolean substitution box (complemented: ... ^ 0xffffffff). -/
def sbox3 (in0 in1 in2 in3 : Nat) : Nat :=
  (in1 &&& in2 &&& in0) ^^^ (in1 &&& in3 &&& in0) ^^^ (in2 &&& in3 &&& in0) ^^^ in0 ^^^ in1 ^^^
    (in1 &&& in2) ^^^ in3 ^^^ 0xffffffff

/-- Loop body of the bitsliced sbox_layer: quartet i of lanes is read from the
input state and the four Boolean s-box outputs are written to the scratch buffer. -/
def bsSboxStep (state_bs : List Nat) (i : Nat) (out : List Nat) : List Nat :=
  let in0 := state_bs.getD (i * 4) 0
  let in1 := state_bs.getD (i * 4 + 1) 0
  let in2 := state_bs.getD (i * 4 + 2) 0
  let in3 := state_bs.getD (i * 4 + 3) 0
  (((out.set (i * 4) (sbox0 in0 in1 in2 in3)).set (i * 4 + 1) (sbox1 in0 in1 in2 in3)).set
      (i * 4 + 2) (sbox2 in0 in1 in2 in3)).set (i * 4 + 3) (sbox3 in0 in1 in2 in3)

/-- Bitsliced sbox_layer: 16 lane quartets through the Boolean s-box into a
scratch buffer, which the final memcpy copies back over all 64 lanes.
(The C scratch array is uninitialised, but every entry is written before the
memcpy, so a zero initial value is immaterial.) -/
def sbox_layer (state_bs : List Nat) : List Nat :=
  foldRange (bsSboxStep state_bs) 16 (List.replicate 64 0)

/-- Loop body of the bitsliced pbox_layer for i = 4*n (the source loop steps by 4):
state_out[i/4 + 16*c] = state_bs[i + c] for c = 0..3. -/
def bsPboxStep (state_bs : List Nat) (n : Nat) (out : List Nat) : List Nat :=
  let i := 4 * n
  let off := i / 4
  (((out.set off (state_bs.getD i 0)).set (off + 16) (state_bs.getD (i + 1) 0)).set
      (off + 32) (state_bs.getD (i + 2) 0)).set (off + 48) (state_bs.getD (i + 3) 0)

/-- Bitsliced pbox_layer: pure lane-index remap through a scratch buffer,
copied back over all 64 lanes by the final memcpy.  (As for sbox_layer, the
scratch is fully written before the memcpy.) -/
def pbox_layer (state_bs : List Nat) : List Nat :=
  foldRange (bsPboxStep state_bs) 16 (List.replicate 64 0)

/-- update_round_key of present_bs/crypto.c: byte-for-byte the same recipe as
the scalar engine (rotate right 19, s-box top nibble, XOR round counter). -/
def update_round_key (key : List Nat) (r : Nat) : List Nat :=
  Ref.xor_counter (Ref.sbox_top (Ref.rotate19 key)) r

/-- Loop body of the bitsliced crypto_func for round counter value n+1. -/
def bsRoundStep (n : Nat) (st : List Nat × List Nat) : List Nat × List Nat :=
  let i := n + 1
  let s1 := add_round_key st.1 (st.2.drop 2)
  let s2 := sbox_layer s1
  let s3 := pbox_layer s2
  (s3, update_round_key st.2 i)

/-- crypto_func (bitsliced engine): enslice the 256-byte buffer into the
zero-initialised lane state, run the 31 rounds and the final key addition,
then unslice back into the buffer.  Returns the final pt and key contents. -/
def crypto_func (pt key : List Nat) : List Nat × List Nat :=
  let st0 := enslice pt (List.replicate 64 0)
  let sk := foldRange bsRoundStep 31 (st0, key)
  let stF := add_round_key sk.1 (sk.2.drop 2)
  (unslice stF pt, sk.2)

end BS

namespace OP

/-- pbox_layer of the optimised variant present_bs/crypto_op.c: the fully
unrolled lane remap.  state_out0 models the initial (uninitialised) contents
of the local scratch array state_out; the two commented-out assignments
state_out[0] = state_bs[0] and state_out[63] = state_bs[63] are absent, and
the final memcpy copies the whole scratch (including its untouched entries
0 and 63) back over state_bs. -/
def pbox_layer (state_out0 state_bs : List Nat) : List Nat :=
  let o0 := ((state_out0.set 16 (state_bs.getD 1 0)).set 32 (state_bs.getD 2 0)).set
    48 (state_bs.getD 3 0)
  let o1 := (((o0.set 1 (state_bs.getD 4 0)).set 17 (state_bs.getD 5 0)).set
    33 (state_bs.getD 6 0)).set 49 (state_bs.getD 7 0)
  let o2 := (((o1.set 2 (state_bs.getD 8 0)).set 18 (state_bs.getD 9 0)).set
    34 (state_bs.getD 10 0)).set 50 (state_bs.getD 11 0)
  let o3 := (((o2.set 3 (state_bs.getD 12 0)).set 19 (state_bs.getD 13 0)).set
    35 (state_bs.getD 14 0)).set 51 (state_bs.getD 15 0)
  let o4 := (((o3.set 4 (state_bs.getD 16 0)).set 20 (state_bs.getD 17 0)).set
    36 (state_bs.getD 18 0)).set 52 (state_bs.getD 19 0)
  let o5 := (((o4.set 5 (state_bs.getD 20 0)).set 21 (state_bs.getD 21 0)).set
    37 (state_bs.getD 22 0)).set 53 (state_bs.getD 23 0)
  let o6 := (((o5.set 6 (state_bs.getD 24 0)).set 22 (state_bs.getD 25 0)).set
    38 (state_bs.getD 26 0)).set 54 (state_bs.getD 27 0)
  let o7 := (((o6.set 7 (state_bs.getD 28 0)).set 23 (state_bs.getD 29 0)).set
    39 (state_bs.getD 30 0)).set 55 (state_bs.getD 31 0)
  let o8 := (((o7.set 8 (state_bs.getD 32 0)).set 24 (state_bs.getD 33 0)).set
    40 (state_bs.getD 34 0)).set 56 (state_bs.getD 35 0)
  let o9 := (((o8.set 9 (state_bs.getD 36 0)).set 25 (state_bs.getD 37 0)).set
    41 (state_bs.getD 38 0)).set 57 (state_bs.getD 39 0)
  let o10 := (((o9.set 10 (state_bs.getD 40 0)).set 26 (state_bs.getD 41 0)).set
    42 (state_bs.getD 42 0)).set 58 (state_bs.getD 43 0)
  let o11 := (((o10.set 11 (state_bs.getD 44 0)).set 27 (state_bs.getD 45 0)).set
    43 (state_bs.getD 46 0)).set 59 (state_bs.getD 47 0)
  let o12 := (((o11.set 12 (state_bs.getD 48 0)).set 28 (state_bs.getD 49 0)).set
    44 (state_bs.getD 50 0)).set 60 (state_bs.getD 51 0)
  let o13 := (((o12.set 13 (state_bs.getD 52 0)).set 29 (state_bs.getD 53 0)).set
    45 (state_bs.getD 54 0)).set 61 (state_bs.getD 55 0)
  let o14 := (((o13.set 14 (state_bs.getD 56 0)).set 30 (state_bs.getD 57 0)).set
    46 (state_bs.getD 58 0)).set 62 (state_bs.getD 59 0)
  ((o14.set 15 (state_bs.getD 60 0)).set 31 (state_bs.getD 61 0)).set
    47 (state_bs.getD 62 0)

end OP

/-- The 64-bit value of an 8-byte block: byte 0 is least significant, byte 7 most
significant.  With this reading the known-answer hex strings of the spec (given
big-endian, first hex byte most significant) denote the value of the block. -/
def blockValue (s : List Nat) : Nat :=
  s.getD 0 0 + s.getD 1 0 * 256 + s.getD 2 0 * 256 ^ 2 + s.getD 3 0 * 256 ^ 3 +
    s.getD 4 0 * 256 ^ 4 + s.getD 5 0 * 256 ^ 5 + s.getD 6 0 * 256 ^ 6 + s.getD 7 0 * 256 ^ 7

/-- Inverse image of PRESENT's bit permutation P(p) = p/4 + 16*(p%4). -/
def invP (q : Nat) : Nat := 4 * (q % 16) + q / 16

/-- Bit p of an 8-byte state held as a list of bytes (bit k%8 of byte k/8). -/
def sBit (s : List Nat) (p : Nat) : Bool := (s.getD (p / 8) 0).testBit (p % 8)

/-- Bit k of the 80-bit key register (bit k%8 of byte k/8). -/
def regBit (key : List Nat) (k : Nat) : Bool := (key.getD (k / 8) 0).testBit (k % 8)

/-- All entries (equivalently, all reads) of a byte buffer are byte-sized. -/
def wfBytes (l : List Nat) : Prop := ∀ i, l.getD i 0 < 256

/-- All entries of a lane buffer are 32-bit-sized. -/
def wfLanes (l : List Nat) : Prop := ∀ i, l.getD i 0 < 4294967296

/-- Pack four bits (x0 least significant) into a nibble. -/
def packNib (b0 b1 b2 b3 : Bool) : Nat :=
  b0.toNat + 2 * b1.toNat + 4 * b2.toNat + 8 * b3.toNat

/-- Inverse lookup table of the PRESENT s-box. -/
def inv_sbox (i : Nat) : Nat :=
  [0x5, 0xE, 0xF, 0x8, 0xC, 0x1, 0x2, 0xD, 0xB, 0x4, 0x6, 0x3, 0x0, 0x7, 0x9, 0xA].getD i 0

/-- Byte-wise application of the scalar s-box to both nibbles (the body of
sbox_layer on a single byte). -/
def sboxByte (b : Nat) : Nat :=
  Ref.sbox (b &&& 0xF) ||| (Ref.sbox ((b >>> 4) &&& 0xF) <<< 4)

/-- Byte-wise application of the inverse s-box to both nibbles. -/
def invSboxByte (b : Nat) : Nat :=
  inv_sbox (b &&& 0xF) ||| (inv_sbox ((b >>> 4) &&& 0xF) <<< 4)

/-- The scalar state of block b inside a 256-byte buffer. -/
def blockOf (pt : List Nat) (b : Nat) : List Nat := (pt.drop (8 * b)).take 8

/-- Relation between a bitsliced lane state and a family of 32 scalar states:
bit b of lane j equals bit j of scalar state b. -/
def LaneRel (st : List Nat) (f : Nat → List Nat) : Prop :=
  ∀ j, j < 64 → ∀ b, b < 32 → (st.getD j 0).testBit b = sBit (f b) j

/-- The value the bitsliced sbox_layer writes into lane q: the Boolean s-box
output q % 4 evaluated on the lane quartet q / 4 of the input state. -/
def bsSboxOut (st : List Nat) (q : Nat) : Nat :=
  let in0 := st.getD (q / 4 * 4) 0
  let in1 := st.getD (q / 4 * 4 + 1) 0
  let in2 := st.getD (q / 4 * 4 + 2) 0
  let in3 := st.getD (q / 4 * 4 + 3) 0
  if q % 4 = 0 then BS.sbox0 in0 in1 in2 in3
  else if q % 4 = 1 then BS.sbox1 in0 in1 in2 in3
  else if q % 4 = 2 then BS.sbox2 in0 in1 in2 in3
  else BS.sbox3 in0 in1 in2 in3

/-- The scalar round function of crypto_func (state part, for a fixed key). -/
def refRound (s key : List Nat) : List Nat :=
  Ref.pbox_layer (Ref.sbox_layer ((Ref.add_round_key s (key.drop 2)).1))

/-- The key schedule iterated: rounds 1..n applied to the register. -/
def keyIter (n : Nat) (key : List Nat) : List Nat :=
  foldRange (fun m k => Ref.update_round_key k (m + 1)) n key

/- ------------------------------------------------------------------ -/
/- Toolkit lemmas: list reads after writes, bit-level characterisation
   of the bit-copy helpers.                                           -/
/- ------------------------------------------------------------------ -/

theorem getD_set (l : List Nat) (i j v : Nat) :
    (l.set i v).getD j 0 = if i = j ∧ i < l.length then v else l.getD j 0 := by
  simp only [List.getD_eq_getElem?_getD, List.getElem?_set]
  by_cases h1 : i = j
  · subst h1
    by_cases h2 : i < l.length
    · simp [h2]
    · have : l[i]? = none := List.getElem?_eq_none (by omega)
      simp [h2, this]
  · simp [h1]

theorem getD_oob (l : List Nat) (j : Nat) (h : l.length ≤ j) : l.getD j 0 = 0 := by
  simp [List.getD_eq_getElem?_getD, List.getElem?_eq_none h]

theorem getD_replicate (n j v : Nat) : (List.replicate n v).getD j 0 = if j < n then v else 0 := by
  by_cases h : j < n <;> simp [List.getD_eq_getElem?_getD, List.getElem?_replicate, h]

theorem getD_drop (l : List Nat) (i j : Nat) : (l.drop i).getD j 0 = l.getD (i + j) 0 := by
  simp [List.getD_eq_getElem?_getD, List.getElem?_drop]

theorem getD_take (l : List Nat) (i j : Nat) (h : j < i) :
    (l.take i).getD j 0 = l.getD j 0 := by
  simp [List.getD_eq_getElem?_getD, List.getElem?_take, h]

theorem testBit_mod256 (x t : Nat) : (x % 256).testBit t = (decide (t < 8) && x.testBit t) := by
  have h : (256 : Nat) = 2 ^ 8 := by norm_num
  rw [h, Nat.testBit_mod_two_pow]

theorem testBit_mod232 (x t : Nat) :
    (x % 4294967296).testBit t = (decide (t < 32) && x.testBit t) := by
  have h : (4294967296 : Nat) = 2 ^ 32 := by norm_num
  rw [h, Nat.testBit_mod_two_pow]

theorem testBit_one_shl (pos t : Nat) : ((1 : Nat) <<< pos).testBit t = decide (t = pos) := by
  have h : (1 : Nat) <<< pos = 2 ^ pos := by rw [Nat.shiftLeft_eq, Nat.one_mul]
  rw [h, Nat.testBit_two_pow]
  by_cases ht : t = pos <;> simp [ht]
  omega

theorem testBit_allones32 (t : Nat) : (4294967295 : Nat).testBit t = decide (t < 32) := by
  have h : (4294967295 : Nat) = 2 ^ 32 - 1 := by norm_num
  rw [h, Nat.testBit_two_pow_sub_one]

theorem testBit_mask32 (pos t : Nat) :
    ((4294967295 : Nat) ^^^ (1 <<< pos)).testBit t = (decide (t < 32) ^^ decide (t = pos)) := by
  rw [Nat.testBit_xor, testBit_allones32, testBit_one_shl]

theorem get_bit_eq (s i : Nat) : Ref.get_bit s i = (s.testBit i).toNat := by
  unfold Ref.get_bit
  rw [Nat.and_one_is_mod, Nat.shiftRight_eq_div_pow, Nat.testBit_to_div_mod]
  rcases Nat.mod_two_eq_zero_or_one (s / 2 ^ i) with h | h <;> simp [h]

theorem get_bit_le_one (s i : Nat) : Ref.get_bit s i ≤ 1 := by
  rw [get_bit_eq]; cases s.testBit i <;> simp

theorem shl_bit_testBit (val pos t : Nat) (hv : val ≤ 1) :
    (val <<< pos).testBit t = (decide (t = pos) && decide (val = 1)) := by
  interval_cases val
  · simp [Nat.shiftLeft_eq]
  · rw [testBit_one_shl]; simp

theorem cpy_bit_testBit (out pos val t : Nat) (hp : pos < 8) (hv : val ≤ 1) :
    (Ref.cpy_bit out pos val).testBit t =
      if t = pos then decide (val = 1) else (decide (t < 8) && out.testBit t) := by
  unfold Ref.cpy_bit
  rw [testBit_mod256, Nat.testBit_or, testBit_mod256, Nat.testBit_and, testBit_mask32,
      shl_bit_testBit _ _ _ hv]
  by_cases ht : t = pos
  · subst ht
    have h8 : t < 8 := hp
    simp [h8, Nat.lt_of_lt_of_le h8 (by norm_num : (8:Nat) ≤ 32)]
  · by_cases h8 : t < 8
    · have h32 : t < 32 := by omega
      simp [ht, h8, h32]
    · simp [ht, h8]

theorem cpy_bit_lt (out pos val : Nat) : Ref.cpy_bit out pos val < 256 :=
  Nat.mod_lt _ (by norm_num)

theorem cpy_bs_bit_testBit (out pos val t : Nat) (hp : pos < 32) (hv : val ≤ 1) :
    (BS.cpy_bs_bit out pos val).testBit t =
      if t = pos then decide (val = 1) else (decide (t < 32) && out.testBit t) := by
  unfold BS.cpy_bs_bit
  rw [testBit_mod232, Nat.testBit_or, testBit_mod232, Nat.testBit_and, testBit_mask32,
      shl_bit_testBit _ _ _ hv]
  by_cases ht : t = pos
  · subst ht
    simp [hp]
  · by_cases h32 : t < 32
    · simp [ht, h32]
    · simp [ht, h32]

theorem cpy_bs_bit_lt (out pos val : Nat) : BS.cpy_bs_bit out pos val < 4294967296 :=
  Nat.mod_lt _ (by norm_num)

theorem cpy_reg_bit_eq_cpy_bit (out pos val : Nat) :
    BS.cpy_reg_bit out pos val = Ref.cpy_bit out pos val := rfl

theorem get_reg_bit_eq_get_bit (s i : Nat) : BS.get_reg_bit s i = Ref.get_bit s i := rfl

theorem get_bs_bit_eq_get_bit (s i : Nat) : BS.get_bs_bit s i = Ref.get_bit s i := rfl


/- ------------------------------------------------------------------ -/
/- Characterisation of the scalar layers.                             -/
/- ------------------------------------------------------------------ -/

theorem toNat_eq_one (b : Bool) : decide (b.toNat = 1) = b := by cases b <;> rfl

theorem get_bit_decide (s i : Nat) : decide (Ref.get_bit s i = 1) = s.testBit i := by
  rw [get_bit_eq, toNat_eq_one]

theorem P_invP (x : Nat) (hx : x < 64) : invP x / 4 + invP x % 4 * 16 = x := by
  have h : ∀ y : Fin 64, invP y.val / 4 + invP y.val % 4 * 16 = y.val := by decide
  exact h ⟨x, hx⟩

theorem invP_P (m : Nat) (hm : m < 64) : invP (m / 4 + m % 4 * 16) = m := by
  have h : ∀ y : Fin 64, invP (y.val / 4 + y.val % 4 * 16) = y.val := by decide
  exact h ⟨m, hm⟩

theorem sbox_layer_aux (s : List Nat) (h : s.length = 8) (n : Nat) (hn : n ≤ 8) :
    (foldRange Ref.sboxStep n s).length = 8 ∧
      ∀ i, (foldRange Ref.sboxStep n s).getD i 0 =
        if i < n then sboxByte (s.getD i 0) else s.getD i 0 := by
  induction n with
  | zero => simp [foldRange, h]
  | succ m ih =>
    obtain ⟨hl, hv⟩ := ih (by omega)
    refine ⟨by simp only [foldRange, Ref.sboxStep, List.length_set]; exact hl, ?_⟩
    intro i
    simp only [foldRange, Ref.sboxStep]
    rw [getD_set, hl]
    have hm : (foldRange Ref.sboxStep m s).getD m 0 = s.getD m 0 := by
      rw [hv m, if_neg (by omega)]
    by_cases him : m = i
    · subst him
      have h8 : m < 8 := by omega
      rw [if_pos ⟨rfl, h8⟩, if_pos (by omega), hm]
      unfold sboxByte
      rfl
    · rw [if_neg (fun hc => him hc.1), hv i]
      by_cases hi : i < m
      · rw [if_pos hi, if_pos (by omega)]
      · rw [if_neg hi, if_neg (by omega)]

theorem sbox_layer_length (s : List Nat) (h : s.length = 8) : (Ref.sbox_layer s).length = 8 :=
  (sbox_layer_aux s h 8 (by omega)).1

theorem sbox_layer_getD (s : List Nat) (h : s.length = 8) (i : Nat) :
    (Ref.sbox_layer s).getD i 0 = if i < 8 then sboxByte (s.getD i 0) else s.getD i 0 :=
  (sbox_layer_aux s h 8 (by omega)).2 i

theorem ark_aux (pt rk : List Nat) (n : Nat) (hn : n ≤ 8) :
    (foldRange Ref.arkStep n (pt, rk)).2 = rk ∧
      (foldRange Ref.arkStep n (pt, rk)).1.length = pt.length ∧
      ∀ i, (foldRange Ref.arkStep n (pt, rk)).1.getD i 0 =
        if i < n ∧ i < pt.length then pt.getD i 0 ^^^ rk.getD i 0 else pt.getD i 0 := by
  induction n with
  | zero => simp [foldRange]
  | succ m ih =>
    obtain ⟨h2, hl, hv⟩ := ih (by omega)
    refine ⟨by simp only [foldRange, Ref.arkStep]; exact h2,
      by simp only [foldRange, Ref.arkStep, List.length_set]; exact hl, ?_⟩
    intro i
    simp only [foldRange, Ref.arkStep]
    rw [getD_set, hl, h2]
    have hm : (foldRange Ref.arkStep m (pt, rk)).1.getD m 0 = pt.getD m 0 := by
      rw [hv m, if_neg (by omega)]
    by_cases him : m = i
    · subst him
      by_cases hlen : m < pt.length
      · rw [if_pos ⟨rfl, hlen⟩, if_pos ⟨by omega, hlen⟩, hm]
      · rw [if_neg (fun hc => hlen hc.2), hv m, if_neg (by omega),
          if_neg (fun hc => hlen hc.2)]
    · rw [if_neg (fun hc => him hc.1), hv i]
      by_cases hi : i < m
      · by_cases hil : i < pt.length
        · rw [if_pos ⟨hi, hil⟩, if_pos ⟨by omega, hil⟩]
        · rw [if_neg (fun hc => hil hc.2), if_neg (fun hc => hil hc.2)]
      · rw [if_neg (fun hc => hi hc.1), if_neg (fun hc => him (by omega))]

theorem add_round_key_snd (pt rk : List Nat) : (Ref.add_round_key pt rk).2 = rk :=
  (ark_aux pt rk 8 (by omega)).1

theorem add_round_key_length (pt rk : List Nat) :
    (Ref.add_round_key pt rk).1.length = pt.length :=
  (ark_aux pt rk 8 (by omega)).2.1

theorem add_round_key_getD (pt rk : List Nat) (i : Nat) :
    (Ref.add_round_key pt rk).1.getD i 0 =
      if i < 8 ∧ i < pt.length then pt.getD i 0 ^^^ rk.getD i 0 else pt.getD i 0 :=
  (ark_aux pt rk 8 (by omega)).2.2 i

theorem pbox_aux (s : List Nat) (n : Nat) (hn : n ≤ 64) :
    (foldRange (Ref.pboxStep s) n (List.replicate 8 0)).length = 8 ∧
      ∀ q, q < 8 →
        (foldRange (Ref.pboxStep s) n (List.replicate 8 0)).getD q 0 < 256 ∧
        ∀ t, ((foldRange (Ref.pboxStep s) n (List.replicate 8 0)).getD q 0).testBit t =
          if t < 8 ∧ invP (8 * q + t) < n then sBit s (invP (8 * q + t)) else false := by
  induction n with
  | zero =>
    refine ⟨by simp [foldRange], ?_⟩
    intro q hq
    rw [foldRange, getD_replicate, if_pos hq]
    refine ⟨by norm_num, ?_⟩
    intro t
    rw [Nat.zero_testBit, if_neg (by omega)]
  | succ m ih =>
    obtain ⟨hl, hv⟩ := ih (by omega)
    have hm64 : m < 64 := by omega
    refine ⟨by simp only [foldRange, Ref.pboxStep, List.length_set]; exact hl, ?_⟩
    intro q hq
    simp only [foldRange, Ref.pboxStep]
    rw [getD_set, hl]
    have hnp : (m / 8 * 8 + m % 8) = m := by omega
    rw [hnp]
    have hnplt : m / 4 + m % 4 * 16 < 64 := by omega
    have hnp8 : (m / 4 + m % 4 * 16) / 8 < 8 := by omega
    have hinvnp : invP (m / 4 + m % 4 * 16) = m := invP_P m hm64
    by_cases hqn : (m / 4 + m % 4 * 16) / 8 = q
    · rw [if_pos ⟨hqn, hnp8⟩]
      refine ⟨cpy_bit_lt _ _ _, ?_⟩
      intro t
      rw [cpy_bit_testBit _ _ _ _ (by omega) (get_bit_le_one _ _)]
      by_cases ht : t = (m / 4 + m % 4 * 16) % 8
      · rw [if_pos ht, get_bit_decide]
        have hx : 8 * q + t = m / 4 + m % 4 * 16 := by omega
        rw [hx, hinvnp]
        have hs : sBit s m = (s.getD (m / 8) 0).testBit (m % 8) := rfl
        rw [if_pos ⟨by omega, by omega⟩, hs]
      · rw [if_neg ht, hqn, (hv q hq).2 t]
        by_cases ht8 : t < 8
        · have hne : invP (8 * q + t) ≠ m := by
            intro hcon
            apply ht
            have h1 := P_invP (8 * q + t) (by omega)
            rw [hcon] at h1
            rw [h1]
            omega
          by_cases hlt : invP (8 * q + t) < m
          · rw [if_pos ⟨ht8, hlt⟩, if_pos ⟨ht8, by omega⟩]
            simp [ht8]
          · rw [if_neg (fun hc => hlt hc.2), if_neg (fun hc => hlt (by omega))]
            simp
        · rw [if_neg (fun hc => ht8 hc.1), if_neg (fun hc => ht8 hc.1)]
          simp
    · rw [if_neg (fun hc => hqn hc.1)]
      refine ⟨(hv q hq).1, ?_⟩
      intro t
      rw [(hv q hq).2 t]
      by_cases ht8 : t < 8
      · have hne : invP (8 * q + t) ≠ m := by
          intro hcon
          apply hqn
          have h1 := P_invP (8 * q + t) (by omega)
          rw [hcon] at h1
          rw [h1]
          omega
        by_cases hlt : invP (8 * q + t) < m
        · rw [if_pos ⟨ht8, hlt⟩, if_pos ⟨ht8, by omega⟩]
        · rw [if_neg (fun hc => hlt hc.2), if_neg (fun hc => hlt (by omega))]
      · rw [if_neg (fun hc => ht8 hc.1), if_neg (fun hc => ht8 hc.1)]

theorem pbox_layer_length (s : List Nat) : (Ref.pbox_layer s).length = 8 :=
  (pbox_aux s 64 (by omega)).1

theorem pbox_layer_getD_lt (s : List Nat) (q : Nat) (hq : q < 8) :
    (Ref.pbox_layer s).getD q 0 < 256 :=
  ((pbox_aux s 64 (by omega)).2 q hq).1

theorem pbox_layer_testBit (s : List Nat) (q t : Nat) (hq : q < 8) :
    ((Ref.pbox_layer s).getD q 0).testBit t =
      if t < 8 then sBit s (invP (8 * q + t)) else false := by
  unfold Ref.pbox_layer
  rw [((pbox_aux s 64 (by omega)).2 q hq).2 t]
  by_cases ht : t < 8
  · rw [if_pos ⟨ht, by unfold invP; omega⟩, if_pos ht]
  · rw [if_neg (fun hc => ht hc.1), if_neg ht]

theorem pbox_layer_sBit (s : List Nat) (p : Nat) (hp : p < 64) :
    sBit (Ref.pbox_layer s) p = sBit s (invP p) := by
  show ((Ref.pbox_layer s).getD (p / 8) 0).testBit (p % 8) = sBit s (invP p)
  rw [pbox_layer_testBit s (p / 8) (p % 8) (by omega), if_pos (by omega)]
  have hx : 8 * (p / 8) + p % 8 = p := by omega
  rw [hx]

/- ------------------------------------------------------------------ -/
/- Characterisation of the bitsliced layers.                          -/
/- ------------------------------------------------------------------ -/

theorem bit_array_getD (s i : Nat) :
    [0, 4294967295].getD (BS.get_reg_bit s i) 0 = if s.testBit i then 4294967295 else 0 := by
  rw [get_reg_bit_eq_get_bit, get_bit_eq]
  cases s.testBit i <;> rfl

theorem bs_ark_aux (st rk : List Nat) (h : st.length = 64) (n : Nat) (hn : n ≤ 64) :
    (foldRange (BS.bsArkStep rk) n st).length = 64 ∧
      ∀ i, (foldRange (BS.bsArkStep rk) n st).getD i 0 =
        if i < n then
          st.getD i 0 ^^^ (if (rk.getD (i / 8) 0).testBit (i % 8) then 4294967295 else 0)
        else st.getD i 0 := by
  induction n with
  | zero => simp [foldRange, h]
  | succ m ih =>
    obtain ⟨hl, hv⟩ := ih (by omega)
    refine ⟨by simp only [foldRange, BS.bsArkStep, List.length_set]; exact hl, ?_⟩
    intro i
    simp only [foldRange, BS.bsArkStep]
    rw [getD_set, hl, bit_array_getD]
    have hm : (foldRange (BS.bsArkStep rk) m st).getD m 0 = st.getD m 0 := by
      rw [hv m, if_neg (by omega)]
    by_cases him : m = i
    · subst him
      rw [if_pos (show m = m ∧ m < 64 from ⟨rfl, by omega⟩),
        if_pos (show m < m + 1 by omega), hm]
    · rw [if_neg (fun hc => him hc.1), hv i]
      by_cases hi : i < m
      · rw [if_pos hi, if_pos (show i < m + 1 by omega)]
      · rw [if_neg hi, if_neg (show ¬ i < m + 1 by omega)]

theorem bs_ark_length (st rk : List Nat) (h : st.length = 64) :
    (BS.add_round_key st rk).length = 64 :=
  (bs_ark_aux st rk h 64 (by omega)).1

theorem bs_ark_getD (st rk : List Nat) (h : st.length = 64) (i : Nat) :
    (BS.add_round_key st rk).getD i 0 =
      if i < 64 then
        st.getD i 0 ^^^ (if (rk.getD (i / 8) 0).testBit (i % 8) then 4294967295 else 0)
      else st.getD i 0 :=
  (bs_ark_aux st rk h 64 (by omega)).2 i

theorem bs_sbox_aux (st : List Nat) (n : Nat) (hn : n ≤ 16) :
    (foldRange (BS.bsSboxStep st) n (List.replicate 64 0)).length = 64 ∧
      ∀ q, (foldRange (BS.bsSboxStep st) n (List.replicate 64 0)).getD q 0 =
        if q < 4 * n then bsSboxOut st q else 0 := by
  induction n with
  | zero =>
    refine ⟨by simp [foldRange], ?_⟩
    intro q
    rw [foldRange, getD_replicate, if_neg (show ¬ q < 4 * 0 by omega)]
    by_cases hq : q < 64 <;> simp [hq]
  | succ m ih =>
    obtain ⟨hl, hv⟩ := ih (by omega)
    refine ⟨by simp only [foldRange, BS.bsSboxStep, List.length_set]; exact hl, ?_⟩
    intro q
    simp only [foldRange, BS.bsSboxStep]
    rw [getD_set, getD_set, getD_set, getD_set]
    simp only [List.length_set, hl]
    by_cases h3 : m * 4 + 3 = q
    · rw [if_pos ⟨h3, by omega⟩, if_pos (by omega)]
      unfold bsSboxOut
      rw [if_neg (by omega), if_neg (by omega), if_neg (by omega)]
      have hq4 : q / 4 * 4 = m * 4 := by omega
      rw [hq4]
    · rw [if_neg (fun hc => h3 hc.1)]
      by_cases h2 : m * 4 + 2 = q
      · rw [if_pos ⟨h2, by omega⟩, if_pos (by omega)]
        unfold bsSboxOut
        rw [if_neg (by omega), if_neg (by omega), if_pos (by omega)]
        have hq4 : q / 4 * 4 = m * 4 := by omega
        rw [hq4]
      · rw [if_neg (fun hc => h2 hc.1)]
        by_cases h1 : m * 4 + 1 = q
        · rw [if_pos ⟨h1, by omega⟩, if_pos (by omega)]
          unfold bsSboxOut
          rw [if_neg (by omega), if_pos (by omega)]
          have hq4 : q / 4 * 4 = m * 4 := by omega
          rw [hq4]
        · rw [if_neg (fun hc => h1 hc.1)]
          by_cases h0 : m * 4 = q
          · rw [if_pos ⟨h0, by omega⟩, if_pos (by omega)]
            unfold bsSboxOut
            rw [if_pos (by omega)]
            have hq4 : q / 4 * 4 = m * 4 := by omega
            rw [hq4]
          · rw [if_neg (fun hc => h0 hc.1), hv q]
            by_cases hq : q < 4 * m
            · rw [if_pos hq, if_pos (by omega)]
            · rw [if_neg hq, if_neg (by omega)]

theorem bs_sbox_length (st : List Nat) : (BS.sbox_layer st).length = 64 :=
  (bs_sbox_aux st 16 (by omega)).1

theorem bs_sbox_getD (st : List Nat) (q : Nat) :
    (BS.sbox_layer st).getD q 0 = if q < 64 then bsSboxOut st q else 0 := by
  have h := (bs_sbox_aux st 16 (by omega)).2 q
  unfold BS.sbox_layer
  rw [h]

theorem bs_pbox_aux (st : List Nat) (n : Nat) (hn : n ≤ 16) :
    (foldRange (BS.bsPboxStep st) n (List.replicate 64 0)).length = 64 ∧
      ∀ q, (foldRange (BS.bsPboxStep st) n (List.replicate 64 0)).getD q 0 =
        if q < 64 ∧ q % 16 < n then st.getD (invP q) 0 else 0 := by
  induction n with
  | zero =>
    refine ⟨by simp [foldRange], ?_⟩
    intro q
    rw [foldRange, getD_replicate, if_neg (show ¬ (q < 64 ∧ q % 16 < 0) by omega)]
    by_cases hq : q < 64 <;> simp [hq]
  | succ m ih =>
    obtain ⟨hl, hv⟩ := ih (by omega)
    refine ⟨by simp only [foldRange, BS.bsPboxStep, List.length_set]; exact hl, ?_⟩
    intro q
    simp only [foldRange, BS.bsPboxStep]
    rw [getD_set, getD_set, getD_set, getD_set]
    simp only [List.length_set, hl]
    have hoff : 4 * m / 4 = m := by omega
    rw [hoff]
    by_cases h3 : m + 48 = q
    · rw [if_pos ⟨h3, by omega⟩, if_pos (by omega)]
      have : invP q = 4 * m + 3 := by unfold invP; omega
      rw [this]
    · rw [if_neg (fun hc => h3 hc.1)]
      by_cases h2 : m + 32 = q
      · rw [if_pos ⟨h2, by omega⟩, if_pos (by omega)]
        have : invP q = 4 * m + 2 := by unfold invP; omega
        rw [this]
      · rw [if_neg (fun hc => h2 hc.1)]
        by_cases h1 : m + 16 = q
        · rw [if_pos ⟨h1, by omega⟩, if_pos (by omega)]
          have : invP q = 4 * m + 1 := by unfold invP; omega
          rw [this]
        · rw [if_neg (fun hc => h1 hc.1)]
          by_cases h0 : m = q
          · rw [if_pos ⟨h0, by omega⟩, if_pos (by omega)]
            have : invP q = 4 * m := by unfold invP; omega
            rw [this]
          · rw [if_neg (fun hc => h0 hc.1), hv q]
            by_cases hq : q < 64 ∧ q % 16 < m
            · rw [if_pos hq, if_pos ⟨hq.1, by omega⟩]
            · rw [if_neg hq, if_neg (by
                intro hc
                apply hq
                refine ⟨hc.1, ?_⟩
                have hne : q % 16 ≠ m := by omega
                omega)]

theorem bs_pbox_length (st : List Nat) : (BS.pbox_layer st).length = 64 :=
  (bs_pbox_aux st 16 (by omega)).1

theorem bs_pbox_getD (st : List Nat) (q : Nat) :
    (BS.pbox_layer st).getD q 0 = if q < 64 then st.getD (invP q) 0 else 0 := by
  have h := (bs_pbox_aux st 16 (by omega)).2 q
  unfold BS.pbox_layer
  rw [h]
  by_cases hq : q < 64
  · rw [if_pos ⟨hq, by omega⟩, if_pos hq]
  · rw [if_neg (fun hc => hq hc.1), if_neg hq]

/- ------------------------------------------------------------------ -/
/- Characterisation of enslice.                                       -/
/- ------------------------------------------------------------------ -/

theorem enslice_inner_aux (pt : List Nat) (i : Nat) (st : List Nat) (p0 : Nat)
    (h : st.length = 64) (n : Nat) (hn : n ≤ 64) :
    (foldRange (BS.ensliceInner pt i) n (st, p0)).2 = p0 + n / 8 ∧
    (foldRange (BS.ensliceInner pt i) n (st, p0)).1.length = 64 ∧
    ∀ j, (foldRange (BS.ensliceInner pt i) n (st, p0)).1.getD j 0 =
      if j < n then
        BS.cpy_bs_bit (st.getD j 0) i (BS.get_reg_bit (pt.getD (p0 + j / 8) 0) (j % 8))
      else st.getD j 0 := by
  induction n with
  | zero =>
    refine ⟨by simp [foldRange], by simp [foldRange, h], ?_⟩
    intro j
    rw [foldRange, if_neg (by omega)]
  | succ m ih =>
    obtain ⟨hp, hl, hv⟩ := ih (by omega)
    have hm : (foldRange (BS.ensliceInner pt i) m (st, p0)).1.getD m 0 = st.getD m 0 := by
      rw [hv m, if_neg (by omega)]
    refine ⟨?_, ?_, ?_⟩
    · simp only [foldRange, BS.ensliceInner]
      rw [hp]
      by_cases h8 : (m + 1) % 8 = 0
      · rw [if_pos h8]; omega
      · rw [if_neg h8]; omega
    · simp only [foldRange, BS.ensliceInner, List.length_set]
      exact hl
    · intro j
      simp only [foldRange, BS.ensliceInner]
      rw [getD_set, hl, hp, hm]
      by_cases hj : m = j
      · subst hj
        rw [if_pos (show m = m ∧ m < 64 from ⟨rfl, by omega⟩),
          if_pos (show m < m + 1 by omega)]
      · rw [if_neg (fun hc => hj hc.1), hv j]
        by_cases hjm : j < m
        · rw [if_pos hjm, if_pos (show j < m + 1 by omega)]
        · rw [if_neg hjm, if_neg (show ¬ j < m + 1 by omega)]

theorem get_reg_bit_decide (s i : Nat) :
    decide (BS.get_reg_bit s i = 1) = s.testBit i := by
  rw [get_reg_bit_eq_get_bit, get_bit_decide]

theorem get_reg_bit_le_one (s i : Nat) : BS.get_reg_bit s i ≤ 1 := by
  rw [get_reg_bit_eq_get_bit]; exact get_bit_le_one s i

theorem enslice_outer_aux (pt st0 : List Nat) (h : st0.length = 64) (n : Nat) (hn : n ≤ 32) :
    (foldRange (BS.ensliceOuter pt) n (st0, 0)).2 = 8 * n ∧
    (foldRange (BS.ensliceOuter pt) n (st0, 0)).1.length = 64 ∧
    ∀ j, j < 64 → ∀ b,
      ((foldRange (BS.ensliceOuter pt) n (st0, 0)).1.getD j 0).testBit b =
        if b < n then (pt.getD (8 * b + j / 8) 0).testBit (j % 8)
        else if n = 0 then (st0.getD j 0).testBit b
        else (decide (b < 32) && (st0.getD j 0).testBit b) := by
  induction n with
  | zero =>
    refine ⟨by simp [foldRange], by simp [foldRange, h], ?_⟩
    intro j hj b
    rw [foldRange, if_neg (show ¬ b < 0 by omega), if_pos rfl]
  | succ m ih =>
    obtain ⟨hp, hl, hv⟩ := ih (by omega)
    have hacc : foldRange (BS.ensliceOuter pt) m (st0, 0) =
        ((foldRange (BS.ensliceOuter pt) m (st0, 0)).1,
         (foldRange (BS.ensliceOuter pt) m (st0, 0)).2) := rfl
    have hin := enslice_inner_aux pt m (foldRange (BS.ensliceOuter pt) m (st0, 0)).1
      (foldRange (BS.ensliceOuter pt) m (st0, 0)).2 hl 64 (by omega)
    obtain ⟨hinp, hinl, hinv⟩ := hin
    have hstep : foldRange (BS.ensliceOuter pt) (m + 1) (st0, 0) =
        foldRange (BS.ensliceInner pt m) 64
          ((foldRange (BS.ensliceOuter pt) m (st0, 0)).1,
           (foldRange (BS.ensliceOuter pt) m (st0, 0)).2) := by
      rw [foldRange, BS.ensliceOuter, ← hacc]
    refine ⟨?_, ?_, ?_⟩
    · rw [hstep, hinp, hp]
      omega
    · rw [hstep, hinl]
    · intro j hj b
      rw [hstep, hinv j, if_pos hj, hp]
      rw [cpy_bs_bit_testBit _ _ _ _ (by omega) (get_reg_bit_le_one _ _)]
      by_cases hb : b = m
      · subst hb
        rw [if_pos rfl, get_reg_bit_decide, if_pos (show b < b + 1 by omega)]
      · rw [if_neg hb, hv j hj b]
        by_cases hbm : b < m
        · rw [if_pos hbm, if_pos (show b < m + 1 by omega)]
          simp [show b < 32 by omega]
        · rw [if_neg hbm, if_neg (show ¬ b < m + 1 by omega),
            if_neg (show ¬ m + 1 = 0 by omega)]
          by_cases hm0 : m = 0
          · rw [if_pos hm0]
          · rw [if_neg hm0, ← Bool.and_assoc, Bool.and_self]

theorem enslice_length (pt st0 : List Nat) (h : st0.length = 64) :
    (BS.enslice pt st0).length = 64 :=
  (enslice_outer_aux pt st0 h 32 (by omega)).2.1

theorem enslice_testBit (pt st0 : List Nat) (h : st0.length = 64) (j b : Nat) (hj : j < 64) :
    ((BS.enslice pt st0).getD j 0).testBit b =
      (decide (b < 32) && (pt.getD (8 * b + j / 8) 0).testBit (j % 8)) := by
  unfold BS.enslice
  rw [(enslice_outer_aux pt st0 h 32 (by omega)).2.2 j hj b]
  by_cases hb : b < 32
  · rw [if_pos hb]
    simp [hb]
  · rw [if_neg hb, if_neg (by omega)]
    simp [hb]

theorem enslice_getD_lt (pt st0 : List Nat) (h : st0.length = 64) (j : Nat) :
    (BS.enslice pt st0).getD j 0 < 4294967296 := by
  by_cases hj : j < 64
  · have hpow : (4294967296 : Nat) = 2 ^ 32 := by norm_num
    rw [hpow]
    apply Nat.lt_pow_two_of_testBit
    intro b hb
    rw [enslice_testBit pt st0 h j b hj]
    simp [show ¬ b < 32 by omega]
  · rw [getD_oob _ _ (by rw [enslice_length pt st0 h]; omega)]
    norm_num

theorem blockOf_sBit (pt : List Nat) (bI j : Nat) (hj : j < 64) :
    sBit (blockOf pt bI) j = (pt.getD (8 * bI + j / 8) 0).testBit (j % 8) := by
  unfold sBit blockOf
  rw [getD_take _ _ _ (by omega), getD_drop]

theorem enslice_LaneRel (pt st0 : List Nat) (h : st0.length = 64) :
    LaneRel (BS.enslice pt st0) (fun bI => blockOf pt bI) := by
  intro j hj b hb
  rw [enslice_testBit pt st0 h j b hj, blockOf_sBit pt b j hj]
  simp [hb]

/- ------------------------------------------------------------------ -/
/- Characterisation of unslice.                                       -/
/- ------------------------------------------------------------------ -/

theorem get_bs_bit_decide (s i : Nat) :
    decide (BS.get_bs_bit s i = 1) = s.testBit i := by
  rw [get_bs_bit_eq_get_bit, get_bit_decide]

theorem get_bs_bit_le_one (s i : Nat) : BS.get_bs_bit s i ≤ 1 := by
  rw [get_bs_bit_eq_get_bit]; exact get_bit_le_one s i

theorem unslice_inner_aux (st : List Nat) (i : Nat) (P : List Nat) (p0 : Nat)
    (hP : P.length = 256) (hp0 : p0 + 8 ≤ 256) (n : Nat) (hn : n ≤ 64) :
    (foldRange (BS.unsliceInner st i) n (P, p0)).2 = p0 + n / 8 ∧
    (foldRange (BS.unsliceInner st i) n (P, p0)).1.length = 256 ∧
    ∀ m,
      ((m < p0 ∨ p0 + 8 ≤ m) →
        (foldRange (BS.unsliceInner st i) n (P, p0)).1.getD m 0 = P.getD m 0) ∧
      (∀ u, m = p0 + u → u < 8 →
        (n ≤ 8 * u →
          (foldRange (BS.unsliceInner st i) n (P, p0)).1.getD m 0 = P.getD m 0) ∧
        (8 * u < n →
          (foldRange (BS.unsliceInner st i) n (P, p0)).1.getD m 0 < 256 ∧
          ∀ v, ((foldRange (BS.unsliceInner st i) n (P, p0)).1.getD m 0).testBit v =
            if v < 8 then
              (if 8 * u + v < n then (st.getD (8 * u + v) 0).testBit i
               else (P.getD m 0).testBit v)
            else false)) := by
  induction n with
  | zero =>
    refine ⟨by simp [foldRange], by simp [foldRange, hP], ?_⟩
    intro m
    refine ⟨fun _ => by rw [foldRange], ?_⟩
    intro u hmu hu
    exact ⟨fun _ => by rw [foldRange], fun hc => absurd hc (by omega)⟩
  | succ k ih =>
    obtain ⟨hp, hl, hv⟩ := ih (by omega)
    have hwix : p0 + k / 8 < 256 := by omega
    refine ⟨?_, ?_, ?_⟩
    · simp only [foldRange, BS.unsliceInner]
      rw [hp]
      by_cases h8 : (k + 1) % 8 = 0
      · rw [if_pos h8]; omega
      · rw [if_neg h8]; omega
    · simp only [foldRange, BS.unsliceInner, List.length_set]
      exact hl
    · intro m
      constructor
      · intro hm
        simp only [foldRange, BS.unsliceInner]
        rw [hp, getD_set, if_neg (by omega)]
        exact (hv m).1 hm
      · intro u hmu hu
        subst hmu
        constructor
        · intro hnu
          simp only [foldRange, BS.unsliceInner]
          rw [hp, getD_set, if_neg (by
            intro hc
            have := hc.1
            omega)]
          exact ((hv (p0 + u)).2 u rfl hu).1 (by omega)
        · intro hnu
          simp only [foldRange, BS.unsliceInner]
          rw [hp, getD_set]
          by_cases hwm : u = k / 8
          · rw [if_pos (by constructor <;> omega)]
            have hbyte : (foldRange (BS.unsliceInner st i) k (P, p0)).1.getD (p0 + k / 8) 0 =
                (foldRange (BS.unsliceInner st i) k (P, p0)).1.getD (p0 + u) 0 := by
              rw [hwm]
            by_cases hk8 : k ≤ 8 * u
            · -- first write into this byte: previous contents are the original byte
              have hold : (foldRange (BS.unsliceInner st i) k (P, p0)).1.getD (p0 + u) 0 =
                  P.getD (p0 + u) 0 := ((hv (p0 + u)).2 u rfl hu).1 hk8
              rw [hbyte, hold]
              refine ⟨cpy_bit_lt _ _ _, ?_⟩
              intro v
              rw [cpy_reg_bit_eq_cpy_bit,
                cpy_bit_testBit _ _ _ _ (by omega) (get_bs_bit_le_one _ _)]
              by_cases hvk : v = k % 8
              · rw [if_pos hvk, get_bs_bit_decide, if_pos (by omega),
                  if_pos (show 8 * u + v < k + 1 by omega)]
                have : 8 * u + v = k := by omega
                rw [this]
              · rw [if_neg hvk]
                by_cases hv8 : v < 8
                · rw [if_pos hv8, if_neg (show ¬ 8 * u + v < k + 1 by omega)]
                  simp [hv8]
                · rw [if_neg hv8]
                  simp [hv8]
            · -- later write: previous contents are already partially sliced
              have hold := ((hv (p0 + u)).2 u rfl hu).2 (by omega)
              rw [hbyte]
              refine ⟨cpy_bit_lt _ _ _, ?_⟩
              intro v
              rw [cpy_reg_bit_eq_cpy_bit,
                cpy_bit_testBit _ _ _ _ (by omega) (get_bs_bit_le_one _ _)]
              by_cases hvk : v = k % 8
              · rw [if_pos hvk, get_bs_bit_decide, if_pos (by omega),
                  if_pos (show 8 * u + v < k + 1 by omega)]
                have : 8 * u + v = k := by omega
                rw [this]
              · rw [if_neg hvk]
                by_cases hv8 : v < 8
                · rw [if_pos hv8, hold.2 v, if_pos hv8]
                  have hne : 8 * u + v ≠ k := by omega
                  by_cases hlt : 8 * u + v < k
                  · rw [if_pos hlt, if_pos (by omega)]
                    simp [hv8]
                  · rw [if_neg hlt, if_neg (by omega)]
                    simp [hv8]
                · rw [if_neg hv8, hold.2 v, if_neg hv8]
                  simp [hv8]
          · -- a different byte than the one written at step k
            rw [if_neg (by
              intro hc
              have := hc.1
              omega)]
            have h8u : 8 * u < k := by omega
            have hold := ((hv (p0 + u)).2 u rfl hu).2 h8u
            refine ⟨hold.1, ?_⟩
            intro v
            rw [hold.2 v]
            by_cases hv8 : v < 8
            · rw [if_pos hv8, if_pos hv8]
              have hne : 8 * u + v ≠ k := by omega
              by_cases hlt : 8 * u + v < k
              · rw [if_pos hlt, if_pos (by omega)]
              · rw [if_neg hlt, if_neg (by omega)]
            · rw [if_neg hv8, if_neg hv8]

theorem unslice_outer_aux (st pt0 : List Nat) (hP : pt0.length = 256) (n : Nat) (hn : n ≤ 32) :
    (foldRange (BS.unsliceOuter st) n (pt0, 0)).2 = 8 * n ∧
    (foldRange (BS.unsliceOuter st) n (pt0, 0)).1.length = 256 ∧
    ∀ m,
      (m < 8 * n →
        (foldRange (BS.unsliceOuter st) n (pt0, 0)).1.getD m 0 < 256 ∧
        ∀ v, ((foldRange (BS.unsliceOuter st) n (pt0, 0)).1.getD m 0).testBit v =
          (decide (v < 8) && (st.getD (8 * (m % 8) + v) 0).testBit (m / 8))) ∧
      (8 * n ≤ m →
        (foldRange (BS.unsliceOuter st) n (pt0, 0)).1.getD m 0 = pt0.getD m 0) := by
  induction n with
  | zero =>
    refine ⟨by simp [foldRange], by simp [foldRange, hP], ?_⟩
    intro m
    exact ⟨fun hc => absurd hc (by omega), fun _ => by rw [foldRange]⟩
  | succ k ih =>
    obtain ⟨hp, hl, hv⟩ := ih (by omega)
    have hin := unslice_inner_aux st k (foldRange (BS.unsliceOuter st) k (pt0, 0)).1
      (foldRange (BS.unsliceOuter st) k (pt0, 0)).2 hl (by omega) 64 (by omega)
    obtain ⟨hinp, hinl, hinv⟩ := hin
    have hstep : foldRange (BS.unsliceOuter st) (k + 1) (pt0, 0) =
        foldRange (BS.unsliceInner st k) 64
          ((foldRange (BS.unsliceOuter st) k (pt0, 0)).1,
           (foldRange (BS.unsliceOuter st) k (pt0, 0)).2) := by
      rw [foldRange, BS.unsliceOuter]
    refine ⟨?_, ?_, ?_⟩
    · rw [hstep, hinp, hp]
      omega
    · rw [hstep, hinl]
    · intro m
      constructor
      · intro hm
        by_cases hmk : m < 8 * k
        · -- byte of an earlier block: untouched by block k
          have huntouched := (hinv m).1 (by omega)
          rw [hstep, huntouched]
          exact (hv m).1 hmk
        · -- byte of block k: fully written during this pass
          have hmu : m = (foldRange (BS.unsliceOuter st) k (pt0, 0)).2 + (m - 8 * k) := by
            omega
          have hufull := ((hinv m).2 (m - 8 * k) (by omega) (by omega)).2 (by omega)
          rw [hstep]
          refine ⟨hufull.1, ?_⟩
          intro v
          rw [hufull.2 v]
          by_cases hv8 : v < 8
          · rw [if_pos hv8, if_pos (by omega)]
            have h1 : 8 * (m - 8 * k) + v = 8 * (m % 8) + v := by omega
            have h2 : k = m / 8 := by omega
            rw [h1, h2]
            simp [hv8]
          · rw [if_neg hv8]
            simp [hv8]
      · intro hm
        have huntouched := (hinv m).1 (by omega)
        rw [hstep, huntouched]
        exact (hv m).2 (by omega)

theorem unslice_length (st pt0 : List Nat) (h : pt0.length = 256) :
    (BS.unslice st pt0).length = 256 :=
  (unslice_outer_aux st pt0 h 32 (by omega)).2.1

theorem unslice_getD_lt (st pt0 : List Nat) (h : pt0.length = 256) (m : Nat) (hm : m < 256) :
    (BS.unslice st pt0).getD m 0 < 256 :=
  (((unslice_outer_aux st pt0 h 32 (by omega)).2.2 m).1 (by omega)).1

theorem unslice_testBit (st pt0 : List Nat) (h : pt0.length = 256) (m : Nat) (hm : m < 256)
    (v : Nat) :
    ((BS.unslice st pt0).getD m 0).testBit v =
      (decide (v < 8) && (st.getD (8 * (m % 8) + v) 0).testBit (m / 8)) :=
  (((unslice_outer_aux st pt0 h 32 (by omega)).2.2 m).1 (by omega)).2 v

/- ------------------------------------------------------------------ -/
/- Bridging the Boolean s-box words with the scalar s-box table.      -/
/- ------------------------------------------------------------------ -/

theorem and15_eq_mod (x : Nat) : x &&& 15 = x % 16 := by
  have h15 : (15 : Nat) = 2 ^ 4 - 1 := by norm_num
  have h16 : (16 : Nat) = 2 ^ 4 := by norm_num
  rw [h15, h16, Nat.and_pow_two_sub_one_eq_mod]

theorem toNat_div_mod (v m : Nat) : (v.testBit m).toNat = v / 2 ^ m % 2 := by
  rw [Nat.testBit_to_div_mod]
  rcases Nat.mod_two_eq_zero_or_one (v / 2 ^ m) with h | h <;> simp [h]

theorem packNib_eq (v m : Nat) :
    packNib (v.testBit m) (v.testBit (m + 1)) (v.testBit (m + 2)) (v.testBit (m + 3)) =
      (v >>> m) &&& 15 := by
  unfold packNib
  rw [toNat_div_mod, toNat_div_mod, toNat_div_mod, toNat_div_mod,
    Nat.shiftRight_eq_div_pow, and15_eq_mod]
  have e1 : v / 2 ^ (m + 1) = v / 2 ^ m / 2 := by
    rw [Nat.div_div_eq_div_mul, Nat.pow_succ]
  have e2 : v / 2 ^ (m + 2) = v / 2 ^ m / 4 := by
    rw [Nat.div_div_eq_div_mul]
    have : 2 ^ (m + 2) = 2 ^ m * 4 := by ring
    rw [this]
  have e3 : v / 2 ^ (m + 3) = v / 2 ^ m / 8 := by
    rw [Nat.div_div_eq_div_mul]
    have : 2 ^ (m + 3) = 2 ^ m * 8 := by ring
    rw [this]
  rw [e1, e2, e3]
  omega

theorem sbox0_bit_table (w0 w1 w2 w3 b : Nat) :
    (BS.sbox0 w0 w1 w2 w3).testBit b =
      (Ref.sbox (packNib (w0.testBit b) (w1.testBit b) (w2.testBit b) (w3.testBit b))).testBit
        0 := by
  simp only [BS.sbox0, Nat.testBit_xor, Nat.testBit_and]
  cases h0 : w0.testBit b <;> cases h1 : w1.testBit b <;> cases h2 : w2.testBit b <;>
    cases h3 : w3.testBit b <;> decide

theorem sbox1_bit_table (w0 w1 w2 w3 b : Nat) :
    (BS.sbox1 w0 w1 w2 w3).testBit b =
      (Ref.sbox (packNib (w0.testBit b) (w1.testBit b) (w2.testBit b) (w3.testBit b))).testBit
        1 := by
  simp only [BS.sbox1, Nat.testBit_xor, Nat.testBit_and]
  cases h0 : w0.testBit b <;> cases h1 : w1.testBit b <;> cases h2 : w2.testBit b <;>
    cases h3 : w3.testBit b <;> decide

theorem sbox2_bit_table (w0 w1 w2 w3 b : Nat) (hb : b < 32) :
    (BS.sbox2 w0 w1 w2 w3).testBit b =
      (Ref.sbox (packNib (w0.testBit b) (w1.testBit b) (w2.testBit b) (w3.testBit b))).testBit
        2 := by
  have hb32 : decide (b < 32) = true := decide_eq_true hb
  simp only [BS.sbox2, Nat.testBit_xor, Nat.testBit_and, testBit_allones32, hb32]
  cases h0 : w0.testBit b <;> cases h1 : w1.testBit b <;> cases h2 : w2.testBit b <;>
    cases h3 : w3.testBit b <;> decide

theorem sbox3_bit_table (w0 w1 w2 w3 b : Nat) (hb : b < 32) :
    (BS.sbox3 w0 w1 w2 w3).testBit b =
      (Ref.sbox (packNib (w0.testBit b) (w1.testBit b) (w2.testBit b) (w3.testBit b))).testBit
        3 := by
  have hb32 : decide (b < 32) = true := decide_eq_true hb
  simp only [BS.sbox3, Nat.testBit_xor, Nat.testBit_and, testBit_allones32, hb32]
  cases h0 : w0.testBit b <;> cases h1 : w1.testBit b <;> cases h2 : w2.testBit b <;>
    cases h3 : w3.testBit b <;> decide

set_option maxRecDepth 100000 in
theorem sboxByte_testBit (v t : Nat) (hv : v < 256) (ht : t < 8) :
    (sboxByte v).testBit t =
      (Ref.sbox ((v >>> (4 * (t / 4))) &&& 15)).testBit (t % 4) := by
  have h : ∀ vb : Fin 256, ∀ tb : Fin 8,
      (sboxByte vb.val).testBit tb.val =
        (Ref.sbox ((vb.val >>> (4 * (tb.val / 4))) &&& 15)).testBit (tb.val % 4) := by decide
  exact h ⟨v, hv⟩ ⟨t, ht⟩

theorem sbox_lt_16 (i : Nat) : Ref.sbox i < 16 := by
  unfold Ref.sbox
  rcases Nat.lt_or_ge i 16 with h | h
  · interval_cases i <;> norm_num
  · rw [getD_oob _ _ (by simp; omega)]
    norm_num

theorem sboxByte_lt (v : Nat) : sboxByte v < 256 := by
  unfold sboxByte
  have h1 := sbox_lt_16 (v &&& 0xF)
  have h2 := sbox_lt_16 ((v >>> 4) &&& 0xF)
  have hpow : (256 : Nat) = 2 ^ 8 := by norm_num
  rw [hpow]
  apply Nat.or_lt_two_pow
  · omega
  · have : (16 : Nat) = 2 ^ 4 := by norm_num
    calc Ref.sbox ((v >>> 4) &&& 0xF) <<< 4 = Ref.sbox ((v >>> 4) &&& 0xF) * 2 ^ 4 := by
          rw [Nat.shiftLeft_eq]
      _ < 2 ^ 8 := by omega

/- ------------------------------------------------------------------ -/
/- Well-formedness lemmas.                                            -/
/- ------------------------------------------------------------------ -/

theorem xor_lt_256 (a b : Nat) (ha : a < 256) (hb : b < 256) : a ^^^ b < 256 := by
  have hpow : (256 : Nat) = 2 ^ 8 := by norm_num
  rw [hpow] at ha hb ⊢
  exact Nat.xor_lt_two_pow ha hb

theorem xor_lt_232 (a b : Nat) (ha : a < 4294967296) (hb : b < 4294967296) :
    a ^^^ b < 4294967296 := by
  have hpow : (4294967296 : Nat) = 2 ^ 32 := by norm_num
  rw [hpow] at ha hb ⊢
  exact Nat.xor_lt_two_pow ha hb

theorem and_lt_232 (a b : Nat) (hb : b < 4294967296) : a &&& b < 4294967296 := by
  have hpow : (4294967296 : Nat) = 2 ^ 32 := by norm_num
  rw [hpow] at hb ⊢
  exact Nat.and_lt_two_pow a hb

theorem wfBytes_drop (l : List Nat) (k : Nat) (h : wfBytes l) : wfBytes (l.drop k) := by
  intro i
  rw [getD_drop]
  exact h (k + i)

theorem blockOf_length (pt : List Nat) (bI : Nat) (h : pt.length = 256) (hb : bI < 32) :
    (blockOf pt bI).length = 8 := by
  unfold blockOf
  rw [List.length_take, List.length_drop, h]
  omega

theorem blockOf_wfBytes (pt : List Nat) (bI : Nat) (h : wfBytes pt) : wfBytes (blockOf pt bI) := by
  intro i
  unfold blockOf
  by_cases hi : i < 8
  · rw [getD_take _ _ _ hi, getD_drop]
    exact h _
  · rw [getD_oob _ _ (by rw [List.length_take]; omega)]
    norm_num

theorem ark_fst_wfBytes (pt rk : List Nat) (hwp : wfBytes pt) (hwr : wfBytes rk) :
    wfBytes (Ref.add_round_key pt rk).1 := by
  intro i
  rw [add_round_key_getD]
  by_cases hi : i < 8 ∧ i < pt.length
  · rw [if_pos hi]
    exact xor_lt_256 _ _ (hwp i) (hwr i)
  · rw [if_neg hi]
    exact hwp i

theorem sbox_layer_wfBytes (s : List Nat) (hl : s.length = 8) (hw : wfBytes s) :
    wfBytes (Ref.sbox_layer s) := by
  intro i
  rw [sbox_layer_getD s hl i]
  by_cases hi : i < 8
  · rw [if_pos hi]
    exact sboxByte_lt _
  · rw [if_neg hi]
    exact hw i

theorem pbox_layer_wfBytes (s : List Nat) : wfBytes (Ref.pbox_layer s) := by
  intro i
  by_cases hi : i < 8
  · exact pbox_layer_getD_lt s i hi
  · rw [getD_oob _ _ (by rw [pbox_layer_length]; omega)]
    norm_num

theorem refRound_length (s key : List Nat) : (refRound s key).length = 8 :=
  pbox_layer_length _

theorem refRound_wfBytes (s key : List Nat) : wfBytes (refRound s key) :=
  pbox_layer_wfBytes _

theorem rotate19_length (key : List Nat) : (Ref.rotate19 key).length = 10 := rfl

theorem rotate19_wfBytes (key : List Nat) : wfBytes (Ref.rotate19 key) := by
  intro i
  unfold Ref.rotate19
  by_cases hi : i < 10
  · interval_cases i <;> simp [List.getD] <;> exact Nat.mod_lt _ (by norm_num)
  · rw [getD_oob _ _ (by simp; omega)]
    norm_num

theorem update_round_key_length (key : List Nat) (r : Nat) :
    (Ref.update_round_key key r).length = 10 := by
  unfold Ref.update_round_key Ref.xor_counter Ref.sbox_top
  simp only [List.length_set]
  exact rotate19_length key

theorem wfBytes_set_mod256 (l : List Nat) (i v : Nat) (h : wfBytes l) :
    wfBytes (l.set i (v % 256)) := by
  intro j
  rw [getD_set]
  by_cases hc : i = j ∧ i < l.length
  · rw [if_pos hc]
    exact Nat.mod_lt _ (by norm_num)
  · rw [if_neg hc]
    exact h j

theorem update_round_key_wfBytes (key : List Nat) (r : Nat) :
    wfBytes (Ref.update_round_key key r) := by
  unfold Ref.update_round_key Ref.xor_counter
  apply wfBytes_set_mod256
  apply wfBytes_set_mod256
  unfold Ref.sbox_top
  apply wfBytes_set_mod256
  exact rotate19_wfBytes key

/- ------------------------------------------------------------------ -/
/- Per-layer lane/scalar correspondence.                              -/
/- ------------------------------------------------------------------ -/

theorem bs_ark_wfLanes (st rk : List Nat) (hstl : st.length = 64) (hw : wfLanes st) :
    wfLanes (BS.add_round_key st rk) := by
  intro i
  rw [bs_ark_getD st rk hstl i]
  by_cases hi : i < 64
  · rw [if_pos hi]
    by_cases hkb : (rk.getD (i / 8) 0).testBit (i % 8)
    · rw [if_pos hkb]
      exact xor_lt_232 _ _ (hw i) (by norm_num)
    · rw [if_neg hkb, Nat.xor_zero]
      exact hw i
  · rw [if_neg hi]
    exact hw i

theorem bsSboxOut_lt (st : List Nat) (q : Nat) (hw : wfLanes st) :
    bsSboxOut st q < 4294967296 := by
  unfold bsSboxOut
  have h0 := hw (q / 4 * 4)
  have h1 := hw (q / 4 * 4 + 1)
  have h2 := hw (q / 4 * 4 + 2)
  have h3 := hw (q / 4 * 4 + 3)
  have hff : (4294967295 : Nat) < 4294967296 := by norm_num
  by_cases hc0 : q % 4 = 0
  · rw [if_pos hc0]
    unfold BS.sbox0
    exact xor_lt_232 _ _ (xor_lt_232 _ _ (xor_lt_232 _ _ h0 (and_lt_232 _ _ h2)) h2) h3
  · rw [if_neg hc0]
    by_cases hc1 : q % 4 = 1
    · rw [if_pos hc1]
      unfold BS.sbox1
      exact xor_lt_232 _ _ (xor_lt_232 _ _ (xor_lt_232 _ _ (xor_lt_232 _ _ (xor_lt_232 _ _
        (xor_lt_232 _ _ (and_lt_232 _ _ h1) (and_lt_232 _ _ h1)) (and_lt_232 _ _ h1)) h1)
        (and_lt_232 _ _ h3)) (and_lt_232 _ _ h3)) h3
    · rw [if_neg hc1]
      by_cases hc2 : q % 4 = 2
      · rw [if_pos hc2]
        unfold BS.sbox2
        exact xor_lt_232 _ _ (xor_lt_232 _ _ (xor_lt_232 _ _ (xor_lt_232 _ _ (xor_lt_232 _ _
          (xor_lt_232 _ _ (xor_lt_232 _ _ (and_lt_232 _ _ h1) (and_lt_232 _ _ h1))
          (and_lt_232 _ _ h1)) h2) (and_lt_232 _ _ h3)) (and_lt_232 _ _ h3)) h3) hff
      · rw [if_neg hc2]
        unfold BS.sbox3
        exact xor_lt_232 _ _ (xor_lt_232 _ _ (xor_lt_232 _ _ (xor_lt_232 _ _ (xor_lt_232 _ _
          (xor_lt_232 _ _ (xor_lt_232 _ _ (and_lt_232 _ _ h0) (and_lt_232 _ _ h0))
          (and_lt_232 _ _ h0)) h0) h1) (and_lt_232 _ _ h2)) h3) hff

theorem bs_sbox_wfLanes (st : List Nat) (hw : wfLanes st) : wfLanes (BS.sbox_layer st) := by
  intro q
  rw [bs_sbox_getD]
  by_cases hq : q < 64
  · rw [if_pos hq]
    exact bsSboxOut_lt st q hw
  · rw [if_neg hq]
    norm_num

theorem bs_pbox_wfLanes (st : List Nat) (hw : wfLanes st) : wfLanes (BS.pbox_layer st) := by
  intro q
  rw [bs_pbox_getD]
  by_cases hq : q < 64
  · rw [if_pos hq]
    exact hw _
  · rw [if_neg hq]
    norm_num

theorem bs_ark_rel (st key : List Nat) (f : Nat → List Nat)
    (hstl : st.length = 64) (hrel : LaneRel st f)
    (hfl : ∀ bI, bI < 32 → (f bI).length = 8) :
    LaneRel (BS.add_round_key st (key.drop 2))
      (fun bI => (Ref.add_round_key (f bI) (key.drop 2)).1) := by
  intro j hj b hb
  rw [bs_ark_getD st _ hstl j, if_pos hj]
  show _ = ((Ref.add_round_key (f b) (key.drop 2)).1.getD (j / 8) 0).testBit (j % 8)
  rw [add_round_key_getD,
    if_pos (show j / 8 < 8 ∧ j / 8 < (f b).length from ⟨by omega, by rw [hfl b hb]; omega⟩)]
  have hr := hrel j hj b hb
  unfold sBit at hr
  by_cases hkb : ((key.drop 2).getD (j / 8) 0).testBit (j % 8)
  · rw [if_pos hkb, Nat.testBit_xor, Nat.testBit_xor, testBit_allones32, hr, hkb,
      decide_eq_true hb]
  · rw [if_neg hkb, Nat.xor_zero, Nat.testBit_xor, hr]
    have hf : ((key.drop 2).getD (j / 8) 0).testBit (j % 8) = false := by
      cases hx : ((key.drop 2).getD (j / 8) 0).testBit (j % 8)
      · rfl
      · exact absurd hx hkb
    rw [hf]
    simp

theorem bs_sbox_rel (stA : List Nat) (g : Nat → List Nat)
    (hrel : LaneRel stA g) (hgl : ∀ bI, bI < 32 → (g bI).length = 8)
    (hgw : ∀ bI, bI < 32 → wfBytes (g bI)) :
    LaneRel (BS.sbox_layer stA) (fun bI => Ref.sbox_layer (g bI)) := by
  intro q hq b hb
  rw [bs_sbox_getD, if_pos hq]
  show (bsSboxOut stA q).testBit b = ((Ref.sbox_layer (g b)).getD (q / 8) 0).testBit (q % 8)
  rw [sbox_layer_getD (g b) (hgl b hb) (q / 8), if_pos (by omega),
    sboxByte_testBit _ _ (hgw b hb (q / 8)) (by omega),
    ← packNib_eq ((g b).getD (q / 8) 0) (4 * (q % 8 / 4))]
  have lane : ∀ d : Nat, d < 4 →
      (stA.getD (q / 4 * 4 + d) 0).testBit b =
        ((g b).getD (q / 8) 0).testBit (4 * (q % 8 / 4) + d) := by
    intro d hd
    have hr := hrel (q / 4 * 4 + d) (by omega) b hb
    unfold sBit at hr
    have i1 : (q / 4 * 4 + d) / 8 = q / 8 := by omega
    have i2 : (q / 4 * 4 + d) % 8 = 4 * (q % 8 / 4) + d := by omega
    rw [i1, i2] at hr
    exact hr
  have e0 : ((g b).getD (q / 8) 0).testBit (4 * (q % 8 / 4)) =
      (stA.getD (q / 4 * 4) 0).testBit b := by
    have h := (lane 0 (by omega)).symm
    have i3 : q / 4 * 4 + 0 = q / 4 * 4 := by omega
    have i4 : 4 * (q % 8 / 4) + 0 = 4 * (q % 8 / 4) := by omega
    rw [i3, i4] at h
    exact h
  have e1 := (lane 1 (by omega)).symm
  have e2 := (lane 2 (by omega)).symm
  have e3 := (lane 3 (by omega)).symm
  rw [e0, e1, e2, e3]
  have hq84 : q % 8 % 4 = q % 4 := by omega
  rw [hq84]
  unfold bsSboxOut
  by_cases hc0 : q % 4 = 0
  · rw [if_pos hc0, hc0]
    exact sbox0_bit_table _ _ _ _ b
  · rw [if_neg hc0]
    by_cases hc1 : q % 4 = 1
    · rw [if_pos hc1, hc1]
      exact sbox1_bit_table _ _ _ _ b
    · rw [if_neg hc1]
      by_cases hc2 : q % 4 = 2
      · rw [if_pos hc2, hc2]
        exact sbox2_bit_table _ _ _ _ b hb
      · rw [if_neg hc2]
        have hc3 : q % 4 = 3 := by omega
        rw [hc3]
        exact sbox3_bit_table _ _ _ _ b hb

theorem bs_pbox_rel (stB : List Nat) (h : Nat → List Nat)
    (hrel : LaneRel stB h) :
    LaneRel (BS.pbox_layer stB) (fun bI => Ref.pbox_layer (h bI)) := by
  intro q hq b hb
  rw [bs_pbox_getD, if_pos hq]
  show (stB.getD (invP q) 0).testBit b = sBit (Ref.pbox_layer (h b)) q
  rw [pbox_layer_sBit (h b) q hq]
  exact hrel (invP q) (by unfold invP; omega) b hb

/- ------------------------------------------------------------------ -/
/- Known-answer vectors for the scalar engine (claim C1).             -/
/- ------------------------------------------------------------------ -/

/-- Claim C1: encrypting the four known-answer inputs with the scalar engine
(present_ref crypto_func) produces the listed ciphertexts.  Blocks and keys
are byte lists; blockValue reads byte 7 as the most significant byte of the
64-bit block, so the hex literals below are exactly the big-endian hex strings
of the spec (all-zero key / all-zero block, all-FF key / all-zero block,
all-zero key / all-FF block, all-FF key / all-FF block). -/
theorem C1_known_answer_vectors :
    blockValue (Ref.crypto_func (List.replicate 8 0x00) (List.replicate 10 0x00)).1 =
      0x5579C1387B228445 ∧
    blockValue (Ref.crypto_func (List.replicate 8 0x00) (List.replicate 10 0xFF)).1 =
      0xE72C46C0F5945049 ∧
    blockValue (Ref.crypto_func (List.replicate 8 0xFF) (List.replicate 10 0x00)).1 =
      0xA112FFC72F68417B ∧
    blockValue (Ref.crypto_func (List.replicate 8 0xFF) (List.replicate 10 0xFF)).1 =
      0x3333DCD3213210D2 := by
  set_option maxRecDepth 1000000 in
  refine ⟨by decide, by decide, by decide, by decide⟩

/- From here on the layer functions are treated as opaque constants by the
elaborator; everything about them needed below is in the lemmas above. -/
attribute [irreducible] Ref.sbox_layer Ref.pbox_layer Ref.add_round_key
attribute [irreducible] BS.add_round_key BS.sbox_layer BS.pbox_layer BS.enslice BS.unslice

/- ------------------------------------------------------------------ -/
/- Full-round correspondence and the 31-round induction.              -/
/- ------------------------------------------------------------------ -/

theorem bs_update_round_key_eq (key : List Nat) (r : Nat) :
    BS.update_round_key key r = Ref.update_round_key key r := rfl

theorem bsRoundStep_eq (n : Nat) (st : List Nat × List Nat) :
    BS.bsRoundStep n st =
      (BS.pbox_layer (BS.sbox_layer (BS.add_round_key st.1 (st.2.drop 2))),
       BS.update_round_key st.2 (n + 1)) := rfl

theorem roundStep_eq (n : Nat) (st : List Nat × List Nat) :
    Ref.roundStep n st =
      (Ref.pbox_layer (Ref.sbox_layer ((Ref.add_round_key st.1 (st.2.drop 2)).1)),
       Ref.update_round_key st.2 (n + 1)) := rfl

theorem keyIter_succ (n : Nat) (key : List Nat) :
    keyIter (n + 1) key = Ref.update_round_key (keyIter n key) (n + 1) := rfl

theorem keyIter_wfBytes (n : Nat) (key : List Nat) (h : wfBytes key) :
    wfBytes (keyIter n key) := by
  induction n with
  | zero => exact h
  | succ m ih => exact update_round_key_wfBytes _ _

theorem bsRound_all (st key : List Nat) (f : Nat → List Nat)
    (hstl : st.length = 64) (hstw : wfLanes st) (hrel : LaneRel st f)
    (hfl : ∀ bI, bI < 32 → (f bI).length = 8) (hfw : ∀ bI, bI < 32 → wfBytes (f bI))
    (hkw : wfBytes key) :
    (BS.pbox_layer (BS.sbox_layer (BS.add_round_key st (key.drop 2)))).length = 64 ∧
    wfLanes (BS.pbox_layer (BS.sbox_layer (BS.add_round_key st (key.drop 2)))) ∧
    LaneRel (BS.pbox_layer (BS.sbox_layer (BS.add_round_key st (key.drop 2))))
      (fun bI => refRound (f bI) key) := by
  have h1l : (BS.add_round_key st (key.drop 2)).length = 64 := bs_ark_length _ _ hstl
  have h1w : wfLanes (BS.add_round_key st (key.drop 2)) := bs_ark_wfLanes _ _ hstl hstw
  have h1r := bs_ark_rel st key f hstl hrel hfl
  have hg1l : ∀ bI, bI < 32 → ((Ref.add_round_key (f bI) (key.drop 2)).1).length = 8 := by
    intro bI hb
    rw [add_round_key_length, hfl bI hb]
  have hg1w : ∀ bI, bI < 32 → wfBytes ((Ref.add_round_key (f bI) (key.drop 2)).1) := by
    intro bI hb
    exact ark_fst_wfBytes _ _ (hfw bI hb) (wfBytes_drop key 2 hkw)
  have h2r := bs_sbox_rel _ _ h1r hg1l hg1w
  have h3r := bs_pbox_rel _ _ h2r
  exact ⟨bs_pbox_length _, bs_pbox_wfLanes _ (bs_sbox_wfLanes _ h1w), h3r⟩

set_option maxRecDepth 100000 in
set_option maxHeartbeats 2000000 in
theorem rounds_rel (pt key : List Nat) (hptl : pt.length = 256) (hptw : wfBytes pt)
    (hkw : wfBytes key) (n : Nat) :
    (foldRange BS.bsRoundStep n (BS.enslice pt (List.replicate 64 0), key)).2 =
      keyIter n key ∧
    (∀ bI, bI < 32 →
      (foldRange Ref.roundStep n (blockOf pt bI, key)).2 = keyIter n key) ∧
    (foldRange BS.bsRoundStep n (BS.enslice pt (List.replicate 64 0), key)).1.length = 64 ∧
    wfLanes (foldRange BS.bsRoundStep n (BS.enslice pt (List.replicate 64 0), key)).1 ∧
    (∀ bI, bI < 32 →
      (foldRange Ref.roundStep n (blockOf pt bI, key)).1.length = 8 ∧
      wfBytes (foldRange Ref.roundStep n (blockOf pt bI, key)).1) ∧
    LaneRel (foldRange BS.bsRoundStep n (BS.enslice pt (List.replicate 64 0), key)).1
      (fun bI => (foldRange Ref.roundStep n (blockOf pt bI, key)).1) := by
  induction n with
  | zero =>
    have hrep : (List.replicate 64 (0 : Nat)).length = 64 := by simp
    have hz : foldRange BS.bsRoundStep 0 (BS.enslice pt (List.replicate 64 0), key) =
        (BS.enslice pt (List.replicate 64 0), key) := rfl
    have hzr : ∀ bI : Nat,
        foldRange Ref.roundStep 0 (blockOf pt bI, key) = (blockOf pt bI, key) :=
      fun _ => rfl
    refine ⟨?_, ?_, ?_, ?_, ?_, ?_⟩
    · rw [hz]
      rfl
    · intro bI hb
      rw [hzr bI]
      rfl
    · rw [hz]
      exact enslice_length pt (List.replicate 64 0) hrep
    · intro i
      rw [hz]
      exact enslice_getD_lt pt (List.replicate 64 0) hrep i
    · intro bI hb
      rw [hzr bI]
      exact ⟨blockOf_length pt bI hptl hb, blockOf_wfBytes pt bI hptw⟩
    · intro j hj b hb
      show ((foldRange BS.bsRoundStep 0
          (BS.enslice pt (List.replicate 64 0), key)).1.getD j 0).testBit b =
        sBit (foldRange Ref.roundStep 0 (blockOf pt b, key)).1 j
      rw [hz, hzr b]
      exact enslice_LaneRel pt (List.replicate 64 0) hrep j hj b hb
  | succ m ih =>
    obtain ⟨hbk, hrk, hbl, hbw, hrs, hrel⟩ := ih
    have hkwi : wfBytes (keyIter m key) := keyIter_wfBytes m key hkw
    have hall := bsRound_all
      (foldRange BS.bsRoundStep m (BS.enslice pt (List.replicate 64 0), key)).1
      (keyIter m key)
      (fun bI => (foldRange Ref.roundStep m (blockOf pt bI, key)).1)
      hbl hbw hrel (fun bI hb => (hrs bI hb).1) (fun bI hb => (hrs bI hb).2) hkwi
    have hBstep : foldRange BS.bsRoundStep (m + 1) (BS.enslice pt (List.replicate 64 0), key) =
        (BS.pbox_layer (BS.sbox_layer (BS.add_round_key
          (foldRange BS.bsRoundStep m (BS.enslice pt (List.replicate 64 0), key)).1
          ((keyIter m key).drop 2))),
         BS.update_round_key (keyIter m key) (m + 1)) := by
      rw [foldRange, bsRoundStep_eq, hbk]
    have hRstep : ∀ bI, bI < 32 →
        foldRange Ref.roundStep (m + 1) (blockOf pt bI, key) =
        (refRound (foldRange Ref.roundStep m (blockOf pt bI, key)).1 (keyIter m key),
         Ref.update_round_key (keyIter m key) (m + 1)) := by
      intro bI hb
      rw [foldRange, roundStep_eq, hrk bI hb]
      rfl
    refine ⟨?_, ?_, ?_, ?_, ?_, ?_⟩
    · rw [hBstep, bs_update_round_key_eq, keyIter_succ]
    · intro bI hb
      rw [hRstep bI hb, keyIter_succ]
    · rw [hBstep]
      exact hall.1
    · rw [hBstep]
      exact hall.2.1
    · intro bI hb
      rw [hRstep bI hb]
      exact ⟨refRound_length _ _, refRound_wfBytes _ _⟩
    · intro j hj b hb
      rw [hBstep]
      show ((BS.pbox_layer (BS.sbox_layer (BS.add_round_key
          (foldRange BS.bsRoundStep m (BS.enslice pt (List.replicate 64 0), key)).1
          ((keyIter m key).drop 2)))).getD j 0).testBit b =
        sBit (foldRange Ref.roundStep (m + 1) (blockOf pt b, key)).1 j
      rw [hall.2.2 j hj b hb, hRstep b hb]

/- ------------------------------------------------------------------ -/
/- The full engines, unfolded once, and the main bridge.              -/
/- ------------------------------------------------------------------ -/

theorem bs_crypto_func_eq (pt key : List Nat) :
    BS.crypto_func pt key =
      (BS.unslice
        (BS.add_round_key
          (foldRange BS.bsRoundStep 31 (BS.enslice pt (List.replicate 64 0), key)).1
          ((foldRange BS.bsRoundStep 31 (BS.enslice pt (List.replicate 64 0), key)).2.drop 2))
        pt,
       (foldRange BS.bsRoundStep 31 (BS.enslice pt (List.replicate 64 0), key)).2) := rfl

theorem ref_crypto_func_eq (s key : List Nat) :
    Ref.crypto_func s key =
      ((Ref.add_round_key (foldRange Ref.roundStep 31 (s, key)).1
          ((foldRange Ref.roundStep 31 (s, key)).2.drop 2)).1,
       (foldRange Ref.roundStep 31 (s, key)).2) := rfl

theorem crypto_bridge (pt key : List Nat) (hptl : pt.length = 256) (hptw : wfBytes pt)
    (hkw : wfBytes key) (m : Nat) (hm : m < 256) :
    (BS.crypto_func pt key).1.getD m 0 =
      (Ref.crypto_func (blockOf pt (m / 8)) key).1.getD (m % 8) 0 := by
  obtain ⟨hbk, hrk, hbl, hbw, hrs, hrel⟩ := rounds_rel pt key hptl hptw hkw 31
  have hK31w : wfBytes (keyIter 31 key) := keyIter_wfBytes 31 key hkw
  have hFr := bs_ark_rel
    (foldRange BS.bsRoundStep 31 (BS.enslice pt (List.replicate 64 0), key)).1
    (keyIter 31 key)
    (fun bI => (foldRange Ref.roundStep 31 (blockOf pt bI, key)).1)
    hbl hrel (fun bI hb => (hrs bI hb).1)
  have hFl : (BS.add_round_key
      (foldRange BS.bsRoundStep 31 (BS.enslice pt (List.replicate 64 0), key)).1
      ((keyIter 31 key).drop 2)).length = 64 := bs_ark_length _ _ hbl
  have hRefW : ∀ bI, bI < 32 →
      wfBytes (Ref.add_round_key
        (foldRange Ref.roundStep 31 (blockOf pt bI, key)).1 ((keyIter 31 key).drop 2)).1 := by
    intro bI hb
    exact ark_fst_wfBytes _ _ (hrs bI hb).2 (wfBytes_drop _ 2 hK31w)
  rw [bs_crypto_func_eq, ref_crypto_func_eq]
  show (BS.unslice
      (BS.add_round_key
        (foldRange BS.bsRoundStep 31 (BS.enslice pt (List.replicate 64 0), key)).1
        ((foldRange BS.bsRoundStep 31 (BS.enslice pt (List.replicate 64 0), key)).2.drop 2))
      pt).getD m 0 =
    (Ref.add_round_key (foldRange Ref.roundStep 31 (blockOf pt (m / 8), key)).1
      ((foldRange Ref.roundStep 31 (blockOf pt (m / 8), key)).2.drop 2)).1.getD (m % 8) 0
  rw [hbk, hrk (m / 8) (by omega)]
  apply Nat.eq_of_testBit_eq
  intro v
  rw [unslice_testBit _ pt hptl m hm v]
  by_cases hv : v < 8
  · have hlane := hFr (8 * (m % 8) + v) (by omega) (m / 8) (by omega)
    rw [hlane]
    unfold sBit
    have i1 : (8 * (m % 8) + v) / 8 = m % 8 := by omega
    have i2 : (8 * (m % 8) + v) % 8 = v := by omega
    rw [i1, i2]
    simp [hv]
  · have hbyte : (Ref.add_round_key (foldRange Ref.roundStep 31 (blockOf pt (m / 8), key)).1
        ((keyIter 31 key).drop 2)).1.getD (m % 8) 0 < 256 :=
      hRefW (m / 8) (by omega) (m % 8)
    have hfalse : ((Ref.add_round_key (foldRange Ref.roundStep 31 (blockOf pt (m / 8), key)).1
        ((keyIter 31 key).drop 2)).1.getD (m % 8) 0).testBit v = false := by
      apply Nat.testBit_lt_two_pow
      calc (Ref.add_round_key (foldRange Ref.roundStep 31 (blockOf pt (m / 8), key)).1
          ((keyIter 31 key).drop 2)).1.getD (m % 8) 0 < 256 := hbyte
        _ = 2 ^ 8 := by norm_num
        _ ≤ 2 ^ v := Nat.pow_le_pow_right (by norm_num) (by omega)
    rw [hfalse]
    simp [hv]

/- ------------------------------------------------------------------ -/
/- List equality helpers.                                             -/
/- ------------------------------------------------------------------ -/

theorem list_eq_of_getD (l1 l2 : List Nat) (hl : l1.length = l2.length)
    (h : ∀ i, i < l1.length → l1.getD i 0 = l2.getD i 0) : l1 = l2 := by
  apply List.ext_getElem hl
  intro n h1 h2
  have := h n h1
  rwa [List.getD_eq_getElem l1 0 h1, List.getD_eq_getElem l2 0 h2] at this

theorem wfBytes_replicate (n v : Nat) (h : v < 256) : wfBytes (List.replicate n v) := by
  intro i
  rw [getD_replicate]
  by_cases hi : i < n
  · rw [if_pos hi]; exact h
  · rw [if_neg hi]; norm_num

/- ------------------------------------------------------------------ -/
/- Claims about the bitsliced engine (C2, C6, C7, C9).                -/
/- ------------------------------------------------------------------ -/

/-- Claim C2: for every 256-byte input (32 contiguous 8-byte blocks) and every
10-byte key, running the bitsliced engine once on the buffer produces, in block
slot i, exactly the ciphertext the scalar engine produces on block i with a
fresh copy of the key: byte u of output block i of present_bs crypto_func
equals byte u of present_ref crypto_func applied to block i. -/
theorem C2_scalar_bitsliced_equivalence (pt key : List Nat) (hptl : pt.length = 256)
    (hptw : wfBytes pt) (hkw : wfBytes key) (i u : Nat) (hi : i < 32) (hu : u < 8) :
    (BS.crypto_func pt key).1.getD (8 * i + u) 0 =
      (Ref.crypto_func (blockOf pt i) key).1.getD u 0 := by
  have h := crypto_bridge pt key hptl hptw hkw (8 * i + u) (by omega)
  have e1 : (8 * i + u) / 8 = i := by omega
  have e2 : (8 * i + u) % 8 = u := by omega
  rw [e1, e2] at h
  exact h

/-- Witness for C2 at the all-zero buffer and key, block 0, byte 0. -/
theorem C2_scalar_bitsliced_equivalence_witness :
    (List.replicate 256 (0 : Nat)).length = 256 ∧
    (BS.crypto_func (List.replicate 256 0) (List.replicate 10 0)).1.getD (8 * 0 + 0) 0 =
      (Ref.crypto_func (blockOf (List.replicate 256 0) 0) (List.replicate 10 0)).1.getD 0 0 :=
  ⟨List.length_replicate 256 0,
   C2_scalar_bitsliced_equivalence (List.replicate 256 0) (List.replicate 10 0)
     (List.length_replicate 256 0)
     (wfBytes_replicate 256 0 (by norm_num)) (wfBytes_replicate 10 0 (by norm_num)) 0 0
     (by norm_num) (by norm_num)⟩

/-- Claim C6: enslice into a pre-zeroed lane buffer followed by unslice restores
the 256-byte input exactly (the output buffer is the input buffer, as in the
bitsliced crypto_func). -/
theorem C6_transpose_round_trip (pt : List Nat) (hptl : pt.length = 256)
    (hptw : wfBytes pt) :
    BS.unslice (BS.enslice pt (List.replicate 64 0)) pt = pt := by
  apply list_eq_of_getD
  · rw [unslice_length _ pt hptl, hptl]
  · intro m hmlen
    rw [unslice_length _ pt hptl] at hmlen
    apply Nat.eq_of_testBit_eq
    intro v
    rw [unslice_testBit _ pt hptl m hmlen v]
    by_cases hv : v < 8
    · rw [enslice_testBit pt _ (List.length_replicate 64 0) (8 * (m % 8) + v) (m / 8)
        (by omega)]
      have i1 : (8 * (m % 8) + v) / 8 = m % 8 := by omega
      have i2 : (8 * (m % 8) + v) % 8 = v := by omega
      rw [i1, i2]
      have i3 : 8 * (m / 8) + m % 8 = m := by omega
      rw [i3]
      simp [hv, show m / 8 < 32 by omega]
    · have hfalse : (pt.getD m 0).testBit v = false := by
        apply Nat.testBit_lt_two_pow
        calc pt.getD m 0 < 256 := hptw m
          _ = 2 ^ 8 := by norm_num
          _ ≤ 2 ^ v := Nat.pow_le_pow_right (by norm_num) (by omega)
      rw [hfalse]
      simp [hv]

/-- Witness for C6 at the all-zero 256-byte buffer. -/
theorem C6_transpose_round_trip_witness :
    (List.replicate 256 (0 : Nat)).length = 256 ∧
    BS.unslice (BS.enslice (List.replicate 256 0) (List.replicate 64 0))
      (List.replicate 256 0) = List.replicate 256 0 :=
  ⟨List.length_replicate 256 0,
   C6_transpose_round_trip (List.replicate 256 0) (List.length_replicate 256 0)
     (wfBytes_replicate 256 0 (by norm_num))⟩

/-- Claim C7: lane isolation of the bitsliced engine.  If two 256-byte inputs
agree on every byte outside block i, the two outputs agree on every byte
outside block i: changing block i changes only bytes 8i..8i+7 of the output. -/
theorem C7_lane_isolation (pt1 pt2 key : List Nat) (h1l : pt1.length = 256)
    (h2l : pt2.length = 256) (h1w : wfBytes pt1) (h2w : wfBytes pt2) (hkw : wfBytes key)
    (i : Nat) (hi : i < 32)
    (hagree : ∀ m, m < 256 → m / 8 ≠ i → pt1.getD m 0 = pt2.getD m 0) :
    ∀ m, m < 256 → m / 8 ≠ i →
      (BS.crypto_func pt1 key).1.getD m 0 = (BS.crypto_func pt2 key).1.getD m 0 := by
  intro m hm hmi
  rw [crypto_bridge pt1 key h1l h1w hkw m hm, crypto_bridge pt2 key h2l h2w hkw m hm]
  have hblocks : blockOf pt1 (m / 8) = blockOf pt2 (m / 8) := by
    apply list_eq_of_getD
    · rw [blockOf_length pt1 _ h1l (by omega), blockOf_length pt2 _ h2l (by omega)]
    · intro t ht
      rw [blockOf_length pt1 _ h1l (by omega)] at ht
      unfold blockOf
      rw [getD_take _ _ _ ht, getD_take _ _ _ ht, getD_drop, getD_drop]
      apply hagree
      · omega
      · have he : (8 * (m / 8) + t) / 8 = m / 8 := by omega
        rw [he]
        exact hmi
  rw [hblocks]

/-- Witness for C7: identical all-zero inputs, block 0, output byte 8. -/
theorem C7_lane_isolation_witness :
    (List.replicate 256 (0 : Nat)).length = 256 ∧
    (BS.crypto_func (List.replicate 256 0) (List.replicate 10 0)).1.getD 8 0 =
      (BS.crypto_func (List.replicate 256 0) (List.replicate 10 0)).1.getD 8 0 :=
  ⟨List.length_replicate 256 0,
   C7_lane_isolation (List.replicate 256 0) (List.replicate 256 0) (List.replicate 10 0)
     (List.length_replicate 256 0) (List.length_replicate 256 0)
     (wfBytes_replicate 256 0 (by norm_num))
     (wfBytes_replicate 256 0 (by norm_num)) (wfBytes_replicate 10 0 (by norm_num)) 0
     (by norm_num) (fun m hm hmi => rfl) 8 (by norm_num) (by norm_num)⟩

/-- Claim C9: the output of enslice does not depend on the prior contents of
the 64-lane output buffer: every destination bit is cleared before being set,
so two runs from any two initial lane buffers leave identical lanes. -/
theorem C9_enslice_initial_independence (pt st1 st2 : List Nat) (h1 : st1.length = 64)
    (h2 : st2.length = 64) (j : Nat) (hj : j < 64) :
    (BS.enslice pt st1).getD j 0 = (BS.enslice pt st2).getD j 0 := by
  apply Nat.eq_of_testBit_eq
  intro b
  rw [enslice_testBit pt st1 h1 j b hj, enslice_testBit pt st2 h2 j b hj]

/-- Witness for C9: all-zero input, one junk buffer and one zero buffer, lane 3. -/
theorem C9_enslice_initial_independence_witness :
    (List.replicate 64 (7 : Nat)).length = 64 ∧
    (BS.enslice (List.replicate 256 0) (List.replicate 64 7)).getD 3 0 =
      (BS.enslice (List.replicate 256 0) (List.replicate 64 0)).getD 3 0 :=
  ⟨List.length_replicate 64 7,
   C9_enslice_initial_independence (List.replicate 256 0) (List.replicate 64 7)
     (List.replicate 64 0) (List.length_replicate 64 7) (List.length_replicate 64 0) 3
     (by norm_num)⟩

/- ------------------------------------------------------------------ -/
/- Claims C3, C4, C10, C8.                                            -/
/- ------------------------------------------------------------------ -/

/-- Claim C3: for every 4-bit input with bits x0 (least significant) .. x3, the
four Boolean functions sbox0..sbox3 of the bitsliced s-box yield bits y0..y3
(the low bit of each 32-bit result) with (y3<<3)|(y2<<2)|(y1<<1)|y0 equal to
the scalar table lookup sbox[(x3<<3)|(x2<<2)|(x1<<1)|x0]. -/
theorem C3_boolean_sbox_equivalence :
    ∀ x : Fin 16,
      ((BS.sbox3 (x.val >>> 0 &&& 1) (x.val >>> 1 &&& 1) (x.val >>> 2 &&& 1)
          (x.val >>> 3 &&& 1) &&& 1) <<< 3 |||
        (BS.sbox2 (x.val >>> 0 &&& 1) (x.val >>> 1 &&& 1) (x.val >>> 2 &&& 1)
          (x.val >>> 3 &&& 1) &&& 1) <<< 2 |||
        (BS.sbox1 (x.val >>> 0 &&& 1) (x.val >>> 1 &&& 1) (x.val >>> 2 &&& 1)
          (x.val >>> 3 &&& 1) &&& 1) <<< 1 |||
        (BS.sbox0 (x.val >>> 0 &&& 1) (x.val >>> 1 &&& 1) (x.val >>> 2 &&& 1)
          (x.val >>> 3 &&& 1) &&& 1)) = Ref.sbox x.val := by
  decide

/-- Claim C4 is false on the code: in crypto_op.c the assignments
state_out[0] = state_bs[0] and state_out[63] = state_bs[63] are commented out
while state_out is an uninitialised scratch later memcpy-ed over the whole
state, so output lanes 0 and 63 hold the scratch buffer's prior contents
instead of input lanes 0 and 63.  Evaluated here at scratch contents 5 and
input lane p = p: output lanes 0 and 63 are 5, not 0 and 63; sample interior
lanes do follow the remap state_out[(p/4)+16*(p%4)] = state_in[p]. -/
theorem C4_op_pbox_scratch_leak :
    (OP.pbox_layer (List.replicate 64 5) (List.range 64)).getD 0 0 = 5 ∧
    (OP.pbox_layer (List.replicate 64 5) (List.range 64)).getD 63 0 = 5 ∧
    (List.range 64).getD 0 0 = 0 ∧
    (List.range 64).getD 63 0 = 63 ∧
    (OP.pbox_layer (List.replicate 64 5) (List.range 64)).getD 16 0 =
      (List.range 64).getD 1 0 ∧
    (OP.pbox_layer (List.replicate 64 5) (List.range 64)).getD 1 0 =
      (List.range 64).getD 4 0 := by
  set_option maxRecDepth 100000 in
  decide

/-- Claim C10: the scalar add_round_key is self-inverse on the block and
read-only in its key argument: applying it twice restores the 8-byte block,
and the roundkey buffer is returned unmodified. -/
theorem C10_ark_self_inverse_key_readonly (pt roundkey : List Nat)
    (hptl : pt.length = 8) :
    (Ref.add_round_key pt roundkey).2 = roundkey ∧
    (Ref.add_round_key (Ref.add_round_key pt roundkey).1 roundkey).1 = pt := by
  refine ⟨add_round_key_snd pt roundkey, ?_⟩
  apply list_eq_of_getD
  · rw [add_round_key_length, add_round_key_length]
  · intro i hlen
    rw [add_round_key_length, add_round_key_length, hptl] at hlen
    rw [add_round_key_getD, add_round_key_getD]
    rw [if_pos (show i < 8 ∧ i < (Ref.add_round_key pt roundkey).1.length from
        ⟨hlen, by rw [add_round_key_length, hptl]; omega⟩),
      if_pos (show i < 8 ∧ i < pt.length from ⟨hlen, by omega⟩)]
    rw [Nat.xor_assoc, Nat.xor_self, Nat.xor_zero]

/-- Witness for C10 at a concrete block and round key. -/
theorem C10_ark_self_inverse_key_readonly_witness :
    ([10, 20, 30, 40, 50, 60, 70, 80] : List Nat).length = 8 ∧
    ((Ref.add_round_key [10, 20, 30, 40, 50, 60, 70, 80] [1, 2, 3, 4, 5, 6, 7, 8]).2 =
        [1, 2, 3, 4, 5, 6, 7, 8] ∧
      (Ref.add_round_key
        (Ref.add_round_key [10, 20, 30, 40, 50, 60, 70, 80] [1, 2, 3, 4, 5, 6, 7, 8]).1
        [1, 2, 3, 4, 5, 6, 7, 8]).1 = [10, 20, 30, 40, 50, 60, 70, 80]) :=
  ⟨rfl, C10_ark_self_inverse_key_readonly [10, 20, 30, 40, 50, 60, 70, 80]
    [1, 2, 3, 4, 5, 6, 7, 8] rfl⟩

theorem sbox_inj16 : ∀ a b : Fin 16, Ref.sbox a.val = Ref.sbox b.val → a = b := by decide

theorem sbox_surj16 : ∀ y : Fin 16, ∃ x : Fin 16, Ref.sbox x.val = y.val := by decide

set_option maxRecDepth 100000 in
theorem sboxByte_inv_left : ∀ b : Fin 256, invSboxByte (sboxByte b.val) = b.val := by decide

set_option maxRecDepth 100000 in
theorem sboxByte_inv_right : ∀ b : Fin 256, sboxByte (invSboxByte b.val) = b.val := by decide

set_option maxRecDepth 100000 in
theorem invSboxByte_lt_256 : ∀ b : Fin 256, invSboxByte b.val < 256 := by decide

theorem invSboxByte_sboxByte (b : Nat) (hb : b < 256) : invSboxByte (sboxByte b) = b :=
  sboxByte_inv_left ⟨b, hb⟩

theorem sboxByte_invSboxByte (b : Nat) (hb : b < 256) : sboxByte (invSboxByte b) = b :=
  sboxByte_inv_right ⟨b, hb⟩

theorem invSboxByte_lt (b : Nat) (hb : b < 256) : invSboxByte b < 256 :=
  invSboxByte_lt_256 ⟨b, hb⟩

theorem map_invSboxByte_getD (t : List Nat) (i : Nat) (hi : i < t.length) :
    (t.map invSboxByte).getD i 0 = invSboxByte (t.getD i 0) := by
  rw [List.getD_eq_getElem?_getD, List.getD_eq_getElem?_getD, List.getElem?_map,
    List.getElem?_eq_getElem hi]
  simp

theorem wfBytes_of_forall (l : List Nat) (h : ∀ i, i < l.length → l.getD i 0 < 256) :
    wfBytes l := by
  intro i
  by_cases hi : i < l.length
  · exact h i hi
  · rw [getD_oob _ _ (by omega)]
    norm_num

/-- Claim C8: the 16-entry s-box table is a bijection on 4-bit values, and the
scalar sbox_layer is a bijection on 8-byte states: injective on byte-valued
lists of length 8 and surjective onto them. -/
theorem C8_sbox_and_layer_bijective :
    (∀ a b : Fin 16, Ref.sbox a.val = Ref.sbox b.val → a = b) ∧
    (∀ y : Fin 16, ∃ x : Fin 16, Ref.sbox x.val = y.val) ∧
    (∀ s t : List Nat, s.length = 8 → t.length = 8 → wfBytes s → wfBytes t →
      Ref.sbox_layer s = Ref.sbox_layer t → s = t) ∧
    (∀ t : List Nat, t.length = 8 → wfBytes t →
      ∃ s : List Nat, s.length = 8 ∧ wfBytes s ∧ Ref.sbox_layer s = t) := by
  refine ⟨sbox_inj16, sbox_surj16, ?_, ?_⟩
  · intro s t hs ht hws hwt heq
    apply list_eq_of_getD _ _ (by rw [hs, ht])
    intro i hilen
    rw [hs] at hilen
    have h1 : (Ref.sbox_layer s).getD i 0 = (Ref.sbox_layer t).getD i 0 := by rw [heq]
    rw [sbox_layer_getD s hs i, sbox_layer_getD t ht i, if_pos hilen, if_pos hilen] at h1
    have h2 := invSboxByte_sboxByte (s.getD i 0) (hws i)
    have h3 := invSboxByte_sboxByte (t.getD i 0) (hwt i)
    rw [← h2, ← h3, h1]
  · intro t htl hwt
    refine ⟨t.map invSboxByte, by rw [List.length_map, htl], ?_, ?_⟩
    · intro i
      by_cases hi : i < t.length
      · rw [map_invSboxByte_getD t i hi]
        exact invSboxByte_lt (t.getD i 0) (hwt i)
      · rw [getD_oob _ _ (by rw [List.length_map]; omega)]
        norm_num
    · apply list_eq_of_getD
      · rw [sbox_layer_length _ (by rw [List.length_map, htl]), htl]
      · intro i hlen
        rw [sbox_layer_length _ (by rw [List.length_map, htl])] at hlen
        rw [sbox_layer_getD _ (by rw [List.length_map, htl]) i, if_pos hlen,
          map_invSboxByte_getD t i (by omega)]
        exact sboxByte_invSboxByte (t.getD i 0) (hwt i)

/- ------------------------------------------------------------------ -/
/- Claim C5: decomposition of update_round_key.                       -/
/- ------------------------------------------------------------------ -/

theorem rotByteBit (x y t : Nat) (ht : t < 8) (hx : x < 256) :
    (((x >>> 3) ||| (y <<< 5)) % 256).testBit t =
      if t < 5 then x.testBit (t + 3) else y.testBit (t - 5) := by
  rw [testBit_mod256, decide_eq_true ht, Bool.true_and, Nat.testBit_or,
    Nat.testBit_shiftRight, Nat.testBit_shiftLeft]
  by_cases h5 : t < 5
  · rw [if_pos h5]
    have h1 : decide (5 ≤ t) = false := by simp; omega
    rw [h1, Bool.false_and, Bool.or_false, Nat.add_comm]
  · rw [if_neg h5]
    have h1 : decide (5 ≤ t) = true := by simp; omega
    have h2 : x.testBit (3 + t) = false := by
      apply Nat.testBit_lt_two_pow
      calc x < 256 := hx
        _ = 2 ^ 8 := by norm_num
        _ ≤ 2 ^ (3 + t) := Nat.pow_le_pow_right (by norm_num) (by omega)
    rw [h1, Bool.true_and, h2, Bool.false_or]

theorem rotate19_getD (key : List Nat) (i : Nat) (hi : i < 10) :
    (Ref.rotate19 key).getD i 0 =
      ((key.getD ((i + 2) % 10) 0 >>> 3) ||| (key.getD ((i + 3) % 10) 0 <<< 5)) % 256 := by
  interval_cases i <;> simp [Ref.rotate19, List.getD]

theorem rotate19_regBit (key : List Nat) (hw : wfBytes key) (k : Nat) (hk : k < 80) :
    regBit (Ref.rotate19 key) k = regBit key ((k + 19) % 80) := by
  unfold regBit
  have hq : k / 8 < 10 := by omega
  rw [rotate19_getD key (k / 8) hq, rotByteBit _ _ _ (by omega) (hw _)]
  by_cases h5 : k % 8 < 5
  · rw [if_pos h5]
    have e1 : (k / 8 + 2) % 10 = (k + 19) % 80 / 8 := by omega
    have e2 : k % 8 + 3 = (k + 19) % 80 % 8 := by omega
    rw [e1, e2]
  · rw [if_neg h5]
    have e1 : (k / 8 + 3) % 10 = (k + 19) % 80 / 8 := by omega
    have e2 : k % 8 - 5 = (k + 19) % 80 % 8 := by omega
    rw [e1, e2]

set_option maxRecDepth 100000 in
theorem sboxTop_low : ∀ b : Fin 256,
    ((((b.val &&& 15) ||| (Ref.sbox (b.val >>> 4) <<< 4)) % 256) % 16) = b.val % 16 := by
  decide

set_option maxRecDepth 100000 in
theorem sboxTop_high : ∀ b : Fin 256,
    ((((b.val &&& 15) ||| (Ref.sbox (b.val >>> 4) <<< 4)) % 256) / 16) =
      Ref.sbox (b.val / 16) := by
  decide

theorem sboxTop_low_nat (b : Nat) (hb : b < 256) :
    ((((b &&& 15) ||| (Ref.sbox (b >>> 4) <<< 4)) % 256) % 16) = b % 16 :=
  sboxTop_low ⟨b, hb⟩

theorem sboxTop_high_nat (b : Nat) (hb : b < 256) :
    ((((b &&& 15) ||| (Ref.sbox (b >>> 4) <<< 4)) % 256) / 16) = Ref.sbox (b / 16) :=
  sboxTop_high ⟨b, hb⟩

theorem sbox_top_length (key : List Nat) : (Ref.sbox_top key).length = key.length := by
  unfold Ref.sbox_top
  rw [List.length_set]

theorem sbox_top_getD (key : List Nat) (hlen : key.length = 10) (i : Nat) :
    (Ref.sbox_top key).getD i 0 =
      if i = 9 then ((key.getD 9 0 &&& 15) ||| (Ref.sbox (key.getD 9 0 >>> 4) <<< 4)) % 256
      else key.getD i 0 := by
  unfold Ref.sbox_top
  rw [getD_set, hlen]
  by_cases h9 : i = 9
  · subst h9
    rw [if_pos ⟨rfl, by norm_num⟩, if_pos rfl]
  · rw [if_neg (fun h => h9 h.1.symm), if_neg h9]

theorem xor_counter_getD (key : List Nat) (r : Nat) (hlen : key.length = 10) (i : Nat) :
    (Ref.xor_counter key r).getD i 0 =
      if i = 1 then (key.getD 1 0 ^^^ (r <<< 7)) % 256
      else if i = 2 then (key.getD 2 0 ^^^ (r >>> 1)) % 256
      else key.getD i 0 := by
  simp only [Ref.xor_counter]
  have hin : (key.set 1 ((key.getD 1 0 ^^^ (r <<< 7)) % 256)).getD 2 0 = key.getD 2 0 := by
    rw [getD_set, if_neg]
    intro h
    exact absurd h.1 (by norm_num)
  rw [hin, getD_set, List.length_set, getD_set, hlen]
  by_cases h2 : i = 2
  · subst h2
    rw [if_pos ⟨rfl, by norm_num⟩, if_neg (by norm_num), if_pos rfl]
  · rw [if_neg (fun h => h2 h.1.symm)]
    by_cases h1 : i = 1
    · subst h1
      rw [if_pos ⟨rfl, by norm_num⟩, if_pos rfl]
    · rw [if_neg (fun h => h1 h.1.symm), if_neg h1, if_neg h2]

theorem xor_counter_regBit (key : List Nat) (r : Nat) (hlen : key.length = 10)
    (hr : r ≤ 31) (k : Nat) (hk : k < 80) :
    regBit (Ref.xor_counter key r) k =
      ((regBit key k).xor (decide (15 ≤ k ∧ k < 20) && r.testBit (k - 15))) := by
  unfold regBit
  rw [xor_counter_getD key r hlen]
  by_cases h1 : k / 8 = 1
  · rw [if_pos h1, testBit_mod256, decide_eq_true (show k % 8 < 8 by omega), Bool.true_and,
      Nat.testBit_xor, Nat.testBit_shiftLeft, h1]
    congr 1
    by_cases h15 : k = 15
    · subst h15
      norm_num
    · have ha : decide (7 ≤ k % 8) = false := by simp; omega
      have hb : decide (15 ≤ k ∧ k < 20) = false := by simp; omega
      rw [ha, hb, Bool.false_and, Bool.false_and]
  · by_cases h2 : k / 8 = 2
    · rw [if_neg h1, if_pos h2, testBit_mod256, decide_eq_true (show k % 8 < 8 by omega),
        Bool.true_and, Nat.testBit_xor, Nat.testBit_shiftRight, h2]
      congr 1
      by_cases h20 : k < 20
      · have hd : decide (15 ≤ k ∧ k < 20) = true := by simp; omega
        rw [hd, Bool.true_and]
        congr 1
        omega
      · have hd : decide (15 ≤ k ∧ k < 20) = false := by simp; omega
        have hz : r.testBit (1 + k % 8) = false := by
          apply Nat.testBit_lt_two_pow
          calc r < 32 := by omega
            _ = 2 ^ 5 := by norm_num
            _ ≤ 2 ^ (1 + k % 8) := Nat.pow_le_pow_right (by norm_num) (by omega)
        rw [hd, hz, Bool.false_and]
    · rw [if_neg h1, if_neg h2]
      have hd : decide (15 ≤ k ∧ k < 20) = false := by simp; omega
      rw [hd, Bool.false_and, Bool.xor_false]

/-- Claim C5: for a 10-byte key register and a round counter r in 1..31,
update_round_key is exactly the composition of three steps: a rotation of the
80-bit register right by 19 bits (after it, register bit k equals old register
bit (k+19) mod 80, with bit k meaning bit k mod 8 of byte k/8), then the
replacement of the high nibble of key[9] by its s-box image with the low
nibble unchanged and all other bytes untouched, then the round-counter XOR
(key[1] ^= r<<7; key[2] ^= r>>1), which leaves every byte other than key[1]
and key[2] unchanged and flips register bit k exactly by bit k-15 of r for
k in 15..19, and no other bit. -/
theorem C5_update_round_key_decomposition (key : List Nat) (r : Nat)
    (hk : key.length = 10) (hw : wfBytes key) (hr1 : 1 ≤ r) (hr2 : r ≤ 31) :
    Ref.update_round_key key r = Ref.xor_counter (Ref.sbox_top (Ref.rotate19 key)) r ∧
    (∀ k, k < 80 → regBit (Ref.rotate19 key) k = regBit key ((k + 19) % 80)) ∧
    ((Ref.sbox_top (Ref.rotate19 key)).getD 9 0 % 16 = (Ref.rotate19 key).getD 9 0 % 16 ∧
      (Ref.sbox_top (Ref.rotate19 key)).getD 9 0 / 16 =
        Ref.sbox ((Ref.rotate19 key).getD 9 0 / 16) ∧
      (∀ i, i ≠ 9 →
        (Ref.sbox_top (Ref.rotate19 key)).getD i 0 = (Ref.rotate19 key).getD i 0)) ∧
    ((∀ i, i ≠ 1 → i ≠ 2 →
        (Ref.xor_counter (Ref.sbox_top (Ref.rotate19 key)) r).getD i 0 =
          (Ref.sbox_top (Ref.rotate19 key)).getD i 0) ∧
      (∀ k, k < 80 →
        regBit (Ref.xor_counter (Ref.sbox_top (Ref.rotate19 key)) r) k =
          ((regBit (Ref.sbox_top (Ref.rotate19 key)) k).xor
            (decide (15 ≤ k ∧ k < 20) && r.testBit (k - 15))))) := by
  have hst : (Ref.sbox_top (Ref.rotate19 key)).length = 10 := by
    rw [sbox_top_length, rotate19_length]
  refine ⟨rfl, rotate19_regBit key hw, ⟨?_, ?_, ?_⟩, ?_, ?_⟩
  · rw [sbox_top_getD _ (rotate19_length key) 9, if_pos rfl]
    exact sboxTop_low_nat _ (rotate19_wfBytes key 9)
  · rw [sbox_top_getD _ (rotate19_length key) 9, if_pos rfl]
    exact sboxTop_high_nat _ (rotate19_wfBytes key 9)
  · intro i hi9
    rw [sbox_top_getD _ (rotate19_length key) i, if_neg hi9]
  · intro i hi1 hi2
    rw [xor_counter_getD _ r hst i, if_neg hi1, if_neg hi2]
  · intro k hk80
    exact xor_counter_regBit _ r hst hr2 k hk80

/-- Witness for C5 at a concrete key and round counter, instantiating the
rotation clause at register bit 0. -/
theorem C5_update_round_key_decomposition_witness :
    ([1, 2, 3, 4, 5, 6, 7, 8, 9, 10] : List Nat).length = 10 ∧
    wfBytes [1, 2, 3, 4, 5, 6, 7, 8, 9, 10] ∧ (1 : Nat) ≤ 5 ∧ (5 : Nat) ≤ 31 ∧
    regBit (Ref.rotate19 [1, 2, 3, 4, 5, 6, 7, 8, 9, 10]) 0 =
      regBit [1, 2, 3, 4, 5, 6, 7, 8, 9, 10] 19 :=
  ⟨rfl, wfBytes_of_forall _ (by decide), by norm_num, by norm_num,
    (C5_update_round_key_decomposition [1, 2, 3, 4, 5, 6, 7, 8, 9, 10] 5 rfl
      (wfBytes_of_forall _ (by decide)) (by norm_num) (by norm_num)).2.1 0 (by norm_num)⟩

/-- Witness for C8: the s-box-layer injectivity clause applied at a concrete
pair of equal states. -/
theorem C8_sbox_and_layer_bijective_witness :
    ([1, 2, 3, 4, 5, 6, 7, 8] : List Nat).length = 8 ∧
    wfBytes [1, 2, 3, 4, 5, 6, 7, 8] ∧
    ([1, 2, 3, 4, 5, 6, 7, 8] : List Nat) = [1, 2, 3, 4, 5, 6, 7, 8] :=
  ⟨rfl, wfBytes_of_forall _ (by decide),
    C8_sbox_and_layer_bijective.2.2.1 [1, 2, 3, 4, 5, 6, 7, 8] [1, 2, 3, 4, 5, 6, 7, 8]
      rfl rfl (wfBytes_of_forall _ (by decide)) (wfBytes_of_forall _ (by decide)) rfl⟩
